/-
Verification of the InternEvo index samplers:
  internlm/data/lumina_pickle/sampler.py  (LuminaPickleSampler, LuminaPickleBatchSampler)
  internlm/data/mocked/batch_sampler.py   (MockedSequentialBatchSampler)

The Python code is shallowly embedded: machine/Python integers become Nat/Int,
Python floats become exact rationals (the spec explicitly disclaims cross-
implementation numeric reproducibility, so only same-implementation determinism
matters), numpy's seeded generator is modelled by a concrete deterministic
linear-congruential generator threaded in exactly the order the source consumes
randomness, and Python assertions / raised exceptions become `Except String`.
-/
import Mathlib

/-! ## Python primitives -/

/-- Python `int(q)` on a (rational-modelled) float: truncation toward zero. -/
def pyInt (q : ℚ) : Int := if 0 ≤ q then ⌊q⌋ else ⌈q⌉

/-- Python `range(start, stop, step)` for `step > 0` (`step = 0` raises in
Python and is never reached by the embedded code; it is mapped to `[]`). -/
def pyRange (start stop step : Nat) : List Nat :=
  if step = 0 then []
  else (List.range ((stop - start + step - 1) / step)).map (fun i => start + i * step)

/-- Python slice `l[i:]` with a possibly negative start index. -/
def pySliceFrom (l : List α) (i : Int) : List α :=
  if 0 ≤ i then l.drop i.toNat else l.drop ((l.length : Int) + i).toNat

/-- Fuel-driven worker for `pyChunks` (structural recursion so that the kernel
can evaluate it). -/
def pyChunksF (c : Nat) : Nat → List α → List (List α)
  | 0, _ => []
  | _ + 1, [] => []
  | fuel + 1, a :: as =>
      if c = 0 then []
      else (a :: as).take c :: pyChunksF c fuel ((a :: as).drop c)

/-- Python `[l[i:i+c] for i in range(0, len(l), c)]` for `c > 0`
(`c = 0` raises in Python and is never reached by the embedded code). -/
def pyChunks (c : Nat) (l : List α) : List (List α) :=
  pyChunksF c l.length l

/-! ## The seeded random generator

`np.random.default_rng(seed)` is modelled by a 64-bit linear congruential
generator.  The spec (§9) makes the exact numeric stream a non-goal: only
"seed in, deterministic sequence out" matters, plus the structural facts that
a shuffle permutes its input and a no-replacement choice selects a
sub-multiset.  The generator state is threaded through the pipeline in
exactly the order the source consumes randomness. -/

def lcgStep (g : Nat) : Nat := (6364136223846793005 * g + 1442695040888963407) % 2 ^ 64

/-- Fuel-driven Fisher-Yates shuffle core: pick a pseudo-random element,
move it to the front, recurse on the rest.  With fuel `≥ l.length` the whole
list is shuffled; leftover elements are appended unchanged when fuel runs out
(never happens for the fuel used by `shuffleGo`). -/
def shuffleFuel : Nat → Nat → List α → List α × Nat
  | 0, g, l => (l, g)
  | _ + 1, g, [] => ([], g)
  | fuel + 1, g, a :: as =>
      let l := a :: as
      let g1 := lcgStep g
      let j := g1 % l.length
      let x := l.getD j a
      let (xs, g2) := shuffleFuel fuel g1 (l.eraseIdx j)
      (x :: xs, g2)

/-- Models the in-place `rng.shuffle(l)` of `np.random.Generator`. -/
def shuffleGo (g : Nat) (l : List α) : List α × Nat :=
  shuffleFuel l.length g l

/-- Models `rng.choice(l, k, replace=False)`: errors (numpy `ValueError`)
unless `0 ≤ k ≤ len(l)`, otherwise draws `k` elements without replacement
via a seeded shuffle. -/
def rngChoice (g : Nat) (l : List α) (k : Int) : Except String (List α × Nat) :=
  if k < 0 ∨ (l.length : Int) < k then .error "ValueError"
  else
    let (sh, g1) := shuffleGo g l
    .ok (sh.take k.toNat, g1)

/-! ## Insertion-ordered association lists

Python `dict` / `collections.defaultdict` preserve insertion order, and the
sampler iterates over them in that order (which fixes the order in which the
generator is consumed), so they are modelled by association lists. -/

/-- `defaultdict` read with a default. -/
def alistGet (l : List (String × β)) (k : String) (d : β) : β :=
  match l.find? (fun p => p.1 == k) with
  | some p => p.2
  | none => d

/-- `dict.__getitem__` as an `Option`. -/
def alistFind (l : List (String × β)) (k : String) : Option β :=
  (l.find? (fun p => p.1 == k)).map (·.2)

/-- `defaultdict` update `d[k] = f(d[k])` (with default `dflt` for a missing
key, which is then appended, preserving insertion order). -/
def alistUpsert (l : List (String × β)) (k : String) (f : β → β) (dflt : β) :
    List (String × β) :=
  match l with
  | [] => [(k, f dflt)]
  | (k', v) :: rest =>
      if k' = k then (k', f v) :: rest else (k', v) :: alistUpsert rest k f dflt

/-- Iterate over the dict in insertion order, rewriting each value while
threading the generator state (models `for name, v in d.items(): ...` loops
that consume randomness per entry). -/
def alistMapState (f : Nat → β → γ × Nat) (g : Nat) :
    List (String × β) → List (String × γ) × Nat
  | [] => ([], g)
  | (k, v) :: rest =>
      let (v', g1) := f g v
      let (rest', g2) := alistMapState f g1 rest
      ((k, v') :: rest', g2)

/-! ## Data model -/

/-- One entry of `dataset.meta_list` (spec §3 GroupMeta).  `ratio` is a Python
float in the source, modelled as an exact rational; it defaults to `1`
(`meta.get("ratio", 1.0)`). -/
structure GroupMeta where
  type : String
  len : Nat
  item_len_list : List Nat
  ratio : ℚ := 1
deriving DecidableEq, Repr

/-- `LuminaPickleSampler`: constructor arguments plus the distributed context
captured at construction (`gpc.get_world_size/get_local_rank` become the
`num_replicas`/`rank` fields) plus the mutable `epoch`/`start_iter` session
state (`start_iter` is a Python int and may be negative). -/
structure LuminaPickleSampler where
  meta_list : List GroupMeta
  micro_batch_size : Nat
  acc_grad : Nat
  shuffle : Bool := true
  seed : Nat := 0
  length_clustering : Bool := true
  allow_mixed_task_among_acc : Bool := false
  num_replicas : Nat
  rank : Nat
  epoch : Nat := 0
  start_iter : Int := 0
deriving Repr

namespace LuminaPickleSampler

/-- `set_epoch(epoch, start_iter)`. -/
def setEpoch (s : LuminaPickleSampler) (epoch : Nat) (start_iter : Int) :
    LuminaPickleSampler :=
  { s with epoch := epoch, start_iter := start_iter }

/-- `micro_batch_size * num_replicas` (`global_batch_size` in `__iter__`). -/
def globalBatchSize (s : LuminaPickleSampler) : Nat :=
  s.micro_batch_size * s.num_replicas

/-- `global_bsz_acc = micro_batch_size * num_replicas * acc_grad`. -/
def globalBszAcc (s : LuminaPickleSampler) : Nat :=
  s.micro_batch_size * s.num_replicas * s.acc_grad

end LuminaPickleSampler

/-- `int(meta["len"] * meta.get("ratio", 1.0))`: the integer contribution of
one partition.  Written in fraction arithmetic (`Int.tdiv` truncates toward
zero, exactly like Python `int()`); `contribInt_eq_pyInt` below proves it
equal to the direct `pyInt ((len : ℚ) * ratio)` transcription. -/
def contribInt (meta : GroupMeta) : Int :=
  ((meta.len : Int) * meta.ratio.num).tdiv meta.ratio.den

/-- `__init__`'s `group_len` accumulation:
`group_len[meta["type"]] += int(meta["len"] * meta.get("ratio", 1.0))`. -/
def groupLenRaw (metas : List GroupMeta) : List (String × Int) :=
  metas.foldl (fun acc meta => alistUpsert acc meta.type (· + contribInt meta) 0) []

/-- `group_len = {key: val // global_bsz_acc * global_bsz_acc ...}` (Python
`//` is floor division, `Int.fdiv`). -/
def alignedGroupLen (metas : List GroupMeta) (A : Nat) : List (String × Int) :=
  (groupLenRaw metas).map (fun kv => (kv.1, kv.2.fdiv A * A))

/-- `self.total_size = sum(list(group_len.values()))`. -/
def totalSize (metas : List GroupMeta) (A : Nat) : Int :=
  ((alignedGroupLen metas A).map (·.2)).sum

/-- `self.num_samples = self.total_size // self.num_replicas` (guarded in the
source by `assert self.total_size % self.num_replicas == 0`, which always
holds: each aligned group length is a multiple of
`A = micro_batch_size * num_replicas * acc_grad`). -/
def numSamples (metas : List GroupMeta) (A w : Nat) : Int :=
  (totalSize metas A).fdiv w

/-! ## `__iter__`, stage by stage -/

/-- One partition's `[[idx, length] for idx, length in zip(indices, item_len_list)]`
where `indices = list(range(start_idx, end_idx))`. -/
def partitionPairs (start : Nat) (meta : GroupMeta) : List (Nat × Nat) :=
  (List.range' start meta.len).zip meta.item_len_list

/-- Per-partition body of the first `__iter__` loop: the
`assert len(indices) == len(meta["item_len_list"])` data-integrity check,
then the optional no-replacement ratio subsample. -/
def partitionSelect (g : Nat) (start : Nat) (meta : GroupMeta) :
    Except String (List (Nat × Nat) × Nat) :=
  if meta.len ≠ meta.item_len_list.length then .error "AssertionError"
  else if meta.ratio ≠ 1 then rngChoice g (partitionPairs start meta) (contribInt meta)
  else .ok (partitionPairs start meta, g)

/-- The first `__iter__` loop: walk `meta_list` in order, advancing
`start_idx` by each partition's `len` and extending
`group_indices_and_len[meta["type"]]`. -/
def buildGroupsGo (g : Nat) (start : Nat) (acc : List (String × List (Nat × Nat))) :
    List GroupMeta → Except String (List (String × List (Nat × Nat)) × Nat)
  | [] => .ok (acc, g)
  | meta :: rest => do
      let (chosen, g1) ← partitionSelect g start meta
      buildGroupsGo g1 (start + meta.len) (alistUpsert acc meta.type (· ++ chosen) []) rest

def buildGroups (g : Nat) (metas : List GroupMeta) :
    Except String (List (String × List (Nat × Nat)) × Nat) :=
  buildGroupsGo g 0 [] metas

/-- `group_indices_and_len[g] = lst[: len(lst) // global_bsz_acc * global_bsz_acc]`. -/
def truncGroups (A : Nat) (groups : List (String × List (Nat × Nat))) :
    List (String × List (Nat × Nat)) :=
  groups.map (fun kv => (kv.1, kv.2.take (kv.2.length / A * A)))

/-- `indices_and_len.sort(key=lambda x: x[1])` (stable sort by length). -/
def sortByLen (l : List (Nat × Nat)) : List (Nat × Nat) :=
  l.mergeSort (fun a b => decide (a.2 ≤ b.2))

/-- Shuffle each list of a list of lists in order, threading the generator. -/
def mapShuffle (g : Nat) : List (List Nat) → List (List Nat) × Nat
  | [] => ([], g)
  | ch :: rest =>
      let (sh, g1) := shuffleGo g ch
      let (rest', g2) := mapShuffle g1 rest
      (sh :: rest', g2)

/-- The "shuffle among neighboring items" loop: split `indices` into
consecutive blocks of `B = global_batch_size * 500`, shuffle each block in
place, and concatenate the blocks back in order. -/
def clusterShuffle (g : Nat) (B : Nat) (l : List Nat) : List Nat × Nat :=
  let (chs, g1) := mapShuffle g (pyChunks B l)
  (chs.flatten, g1)

/-- The per-group ordering stage under `if self.shuffle:`.  With
`length_clustering` each group's pairs are sorted by length, projected to
indices, then block-shuffled; otherwise the pairs are shuffled whole and then
projected. -/
def orderGroups (g : Nat) (lengthClustering : Bool) (B : Nat)
    (groups : List (String × List (Nat × Nat))) : List (String × List Nat) × Nat :=
  if lengthClustering then
    let sorted := groups.map (fun kv => (kv.1, (sortByLen kv.2).map (·.1)))
    alistMapState (fun g l => clusterShuffle g B l) g sorted
  else
    alistMapState (fun g pairs =>
      let (sh, g1) := shuffleGo g pairs
      (sh.map (·.1), g1)) g groups

/-- One group's work in the `allow_mixed_task_among_acc = False` branch:
micro-batch the group's indices at `global_batch_size`, shuffle the batches,
and concatenate every `acc_grad` consecutive batches into one accumulation
unit (`sum(batches[i:i+acc_grad], start=[])`). -/
def accUnitsForGroup (g : Nat) (gbs acc : Nat) (idxs : List Nat) :
    List (List Nat) × Nat :=
  let chunks := pyChunks gbs idxs
  let (sh, g1) := shuffleGo g chunks
  ((pyChunks acc sh).map List.flatten, g1)

/-- Fold of `accUnitsForGroup` over the groups in order, extending
`global_batched_indices`. -/
def batchStageGo (g : Nat) (gbs acc : Nat) :
    List (String × List Nat) → List (List Nat) × Nat
  | [] => ([], g)
  | (_, idxs) :: rest =>
      let (units, g1) := accUnitsForGroup g gbs acc idxs
      let (restUnits, g2) := batchStageGo g1 gbs acc rest
      (units ++ restUnits, g2)

/-- Building `global_batched_indices`: pooled micro-batches when
`allow_mixed_task_among_acc`, per-group shuffled accumulation units
otherwise. -/
def batchStage (g : Nat) (mixed : Bool) (gbs acc : Nat)
    (groups : List (String × List Nat)) : List (List Nat) × Nat :=
  if mixed then ((groups.map (fun kv => pyChunks gbs kv.2)).flatten, g)
  else batchStageGo g gbs acc groups

/-- The fixed-stride rank share:
`for start_pos in range(rank * mbs, len(indices), num_replicas * mbs):
   own_indices += indices[start_pos : start_pos + mbs]`. -/
def ownIndices (indices : List Nat) (rank m w : Nat) : List Nat :=
  (pyRange (rank * m) indices.length (w * m)).flatMap
    (fun p => (indices.drop p).take m)

/-- The resume cursor: an overflow guard with a strict `>` comparison, then a
Python slice whose start may be negative. -/
def resumeSlice (own : List Nat) (k : Int) (m : Nat) : List Nat :=
  if k * m > (own.length : Int) then [] else pySliceFrom own (k * m)

namespace LuminaPickleSampler

/-- `__iter__` up to (and including) the
`assert len(indices) == self.total_size` check: the full per-epoch global
flat permutation, recomputed from scratch from `seed + epoch` and the
metadata.  The non-shuffled path raises `NotImplementedError`. -/
def globalIndices (s : LuminaPickleSampler) : Except String (List Nat) := do
  let (groups, g1) ← buildGroups (s.seed + s.epoch) s.meta_list
  let tgroups := truncGroups s.globalBszAcc groups
  if s.shuffle then
    let (gIdx, g2) := orderGroups g1 s.length_clustering (s.globalBatchSize * 500) tgroups
    let (units, g3) := batchStage g2 s.allow_mixed_task_among_acc
      s.globalBatchSize s.acc_grad gIdx
    let (shUnits, _) := shuffleGo g3 units
    let indices := shUnits.flatten
    if (indices.length : Int) ≠ totalSize s.meta_list s.globalBszAcc then
      .error "AssertionError"
    else .ok indices
  else .error "NotImplementedError"

/-- The remainder of `__iter__`: rank share extraction, the
`assert len(own_indices) == self.num_samples` check, and the resume slice.
The returned list is the sequence of indices the rank's iterator yields. -/
def iter (s : LuminaPickleSampler) : Except String (List Nat) := do
  let indices ← s.globalIndices
  let own := ownIndices indices s.rank s.micro_batch_size s.num_replicas
  if (own.length : Int) ≠ numSamples s.meta_list s.globalBszAcc s.num_replicas then
    .error "AssertionError"
  else .ok (resumeSlice own s.start_iter s.micro_batch_size)

/-- `len(sampler)` reports `self.num_samples` without iterating. -/
def lengthReported (s : LuminaPickleSampler) : Int :=
  numSamples s.meta_list s.globalBszAcc s.num_replicas

end LuminaPickleSampler

/-! ## The outer micro-batch wrapper (`LuminaPickleBatchSampler`) -/

/-- Modelled from the spec: the `LuminaPickleDataset` class (the `dataset`
collaborator whose `len()` the wrapper reads) is not part of the provided
sources.  Per spec §3/§6 the dataset exposes `len(dataset)` as its total
sample count and its global index space is the concatenation of the ordered
partitions, so `len(dataset)` is the sum of the partitions' `len` fields. -/
def datasetLen (metas : List GroupMeta) : Nat := (metas.map (·.len)).sum

namespace LuminaPickleBatchSampler

/-- `self.num_batches = len(dataset) // micro_batch_size // world_size`,
computed from the raw dataset length. -/
def numBatches (s : LuminaPickleSampler) : Nat :=
  datasetLen s.meta_list / s.micro_batch_size / s.num_replicas

/-- The wrapper's `__iter__`: pull `micro_batch_size` indices from the inner
sampler `num_batches` times.  The Python generator is lazy; it is modelled
eagerly: if the inner stream holds fewer than `num_batches * micro_batch_size`
indices, `next(single_iter)` raises `StopIteration`, which Python converts to
a `RuntimeError` inside the generator. -/
def batchIter (s : LuminaPickleSampler) : Except String (List (List Nat)) := do
  let own ← s.iter
  if numBatches s * s.micro_batch_size ≤ own.length then
    .ok (pyChunks s.micro_batch_size (own.take (numBatches s * s.micro_batch_size)))
  else .error "RuntimeError"

end LuminaPickleBatchSampler

/-! ## Observation: which group a global index belongs to

Spec §3: the global index space is the concatenation of the partitions in
order, so each global index maps to exactly one `(group, local position)`
pair.  `groupOf` recovers the group label, for stating homogeneity. -/

def groupOfAux : List GroupMeta → Nat → Nat → Option String
  | [], _, _ => none
  | meta :: rest, off, idx =>
      if off ≤ idx ∧ idx < off + meta.len then some meta.type
      else groupOfAux rest (off + meta.len) idx

def groupOf (metas : List GroupMeta) (idx : Nat) : Option String :=
  groupOfAux metas 0 idx

/-- A batch is homogeneous: all its indices belong to one group. -/
def SingleGroup (metas : List GroupMeta) (l : List Nat) : Prop :=
  ∃ gname, ∀ i ∈ l, groupOf metas i = some gname

/-- Valid dataset metadata (spec §3/§6): each partition's `item_len_list`
matches its `len`, and `ratio` is a retention fraction in `[0, 1]`. -/
def MetasWF (metas : List GroupMeta) : Prop :=
  ∀ meta ∈ metas, meta.len = meta.item_len_list.length ∧ 0 ≤ meta.ratio ∧ meta.ratio ≤ 1

instance : DecidablePred MetasWF := fun metas =>
  inferInstanceAs (Decidable (∀ meta ∈ metas, _ ∧ _ ∧ _))

/-! ## The sequential fallback sampler (`MockedSequentialBatchSampler`) -/

/-- The batches one full `__iter__` pass yields, for a dataset of length `N`
and micro-count `micro`: `list(range(start, min(start + micro, N)))` for each
`start in range(0, N, micro)`.  (The persistent `batch_count` /
`num_consumed_samples_in_epoch` counters only feed `state_dict` and are not
claimed here.) -/
def mockedBatches (N micro : Nat) : List (List Nat) :=
  (pyRange 0 N micro).map (fun start => List.range' start (min (start + micro) N - start))

/-- `len(sampler) = (len(train_ds) + micro_num - 1) // micro_num`. -/
def mockedLen (N micro : Nat) : Nat := (N + micro - 1) / micro

/-! ## Proof-side helper definitions -/

/-- All values of a grouped association list, concatenated in insertion
order. -/
def flattenValues (l : List (String × List γ)) : List γ := (l.map (·.2)).flatten

/-- All `(index, length)` pairs of all partitions, laid out along the global
offset space starting at `start`. -/
def allPairsFrom : Nat → List GroupMeta → List (Nat × Nat)
  | _, [] => []
  | start, meta :: rest => partitionPairs start meta ++ allPairsFrom (start + meta.len) rest

/-- Proof-side recursive presentation of the stride loop: `q` remaining
stride blocks of width `w * m`, taking the `m`-slice at offset `r * m` of
each. -/
def shareAux (r m w : Nat) : Nat → List α → List α
  | 0, _ => []
  | q + 1, l => (l.drop (r * m)).take m ++ shareAux r m w q (l.drop (w * m))

/-- Pointwise relation between a built group entry and its `group_len`
accumulator entry: same key, and the pair list's length is the accumulated
integer. -/
def EntryRel (a : String × List (Nat × Nat)) (b : String × Int) : Prop :=
  a.1 = b.1 ∧ (a.2.length : Int) = b.2

deriving instance DecidableEq for Except

/-- The exact rational 1/2, written as a raw fraction so that kernel
evaluation (`decide`) never has to run `Rat` field arithmetic. -/
def halfQ : ℚ := { num := 1, den := 2, den_nz := by decide, reduced := by decide }

/-- Per-group sum of the per-partition integer contributions
`int(len_i * ratio_i)` (the amended `group_len` formula). -/
def groupSum (metas : List GroupMeta) (t : String) : Int :=
  ((metas.filter (fun meta => meta.type = t)).map contribInt).sum

/-! ## Concrete instances used by the closed evaluation theorems -/

/-- One partition of five samples, `micro_batch_size = 1`, `acc_grad = 2`,
one data-parallel rank: `total_size` truncates 5 down to 4 while the raw
dataset length stays 5. -/
def samplerC1 : LuminaPickleSampler :=
  { meta_list := [{ type := "t", len := 5, item_len_list := [1, 1, 1, 1, 1] }]
    micro_batch_size := 1, acc_grad := 2, num_replicas := 1, rank := 0
    length_clustering := false }

/-- Two single-type partitions over two ranks. -/
def samplerC2 : LuminaPickleSampler :=
  { meta_list := [{ type := "a", len := 4, item_len_list := [1, 2, 3, 4] },
                  { type := "b", len := 5, item_len_list := [5, 4, 3, 2, 1] }]
    micro_batch_size := 1, acc_grad := 2, num_replicas := 2, rank := 0
    length_clustering := false }

/-- Twin instances with identical configuration, for the determinism claim. -/
def samplerC3a : LuminaPickleSampler :=
  { meta_list := [{ type := "t", len := 4, item_len_list := [1, 2, 3, 4] }]
    micro_batch_size := 2, acc_grad := 1, num_replicas := 2, rank := 1
    seed := 7, epoch := 3, start_iter := 1 }

def samplerC3b : LuminaPickleSampler :=
  { meta_list := [{ type := "t", len := 4, item_len_list := [1, 2, 3, 4] }]
    micro_batch_size := 2, acc_grad := 1, num_replicas := 2, rank := 1
    seed := 7, epoch := 3, start_iter := 1 }

/-- One partition of four samples on a single rank, for the resume claims. -/
def samplerC7 : LuminaPickleSampler :=
  { meta_list := [{ type := "t", len := 4, item_len_list := [1, 2, 3, 4] }]
    micro_batch_size := 1, acc_grad := 1, num_replicas := 1, rank := 0
    length_clustering := false, start_iter := 2 }

/-- A sampler constructed with `shuffle = False`. -/
def samplerC8 : LuminaPickleSampler :=
  { meta_list := [{ type := "t", len := 2, item_len_list := [1, 2] }]
    micro_batch_size := 1, acc_grad := 1, num_replicas := 1, rank := 0
    shuffle := false }

/-- One partition of two samples on a single rank, for the negative
`start_iter` boundary. -/
def samplerC10 : LuminaPickleSampler :=
  { meta_list := [{ type := "t", len := 2, item_len_list := [3, 4] }]
    micro_batch_size := 1, acc_grad := 1, num_replicas := 1, rank := 0
    length_clustering := false }

/-- Two half-ratio partitions of the same type: `int()` truncates each
`3 * 1/2` to `1` before the sums are taken. -/
def metasC5 : List GroupMeta :=
  [{ type := "t", len := 3, item_len_list := [1, 2, 3], ratio := halfQ },
   { type := "t", len := 3, item_len_list := [4, 5, 6], ratio := halfQ }]

/-- One half-ratio partition of three samples. -/
def metaC6 : GroupMeta :=
  { type := "t", len := 3, item_len_list := [5, 6, 7], ratio := halfQ }

/-! # Lemmas -/

/-! ## `pyInt` and `contribInt` -/

theorem pyInt_intCast_div_natCast (a : ℤ) (b : ℕ) (hb : 0 < b) :
    pyInt ((a : ℚ) / (b : ℚ)) = a.tdiv b := by
  have hbq : (0 : ℚ) < (b : ℚ) := by exact_mod_cast hb
  by_cases h : 0 ≤ a
  · have hq : (0 : ℚ) ≤ (a : ℚ) / (b : ℚ) :=
      div_nonneg (by exact_mod_cast h) (le_of_lt hbq)
    rw [pyInt, if_pos hq, Rat.floor_intCast_div_natCast,
      Int.tdiv_eq_ediv h (by positivity)]
  · have ha : a < 0 := lt_of_not_ge h
    have hq : (a : ℚ) / (b : ℚ) < 0 :=
      div_neg_of_neg_of_pos (by exact_mod_cast ha) hbq
    rw [pyInt, if_neg (not_le_of_lt hq)]
    have : ⌈(a : ℚ) / (b : ℚ)⌉ = -⌊((-a : ℤ) : ℚ) / (b : ℚ)⌋ := by
      rw [← Int.ceil_neg, ← neg_div]
      norm_num
    rw [this, Rat.floor_intCast_div_natCast]
    have : a.tdiv (b : ℤ) = -((-a).tdiv (b : ℤ)) := by
      rw [Int.neg_tdiv]; ring
    rw [this, Int.tdiv_eq_ediv (by omega) (by positivity)]

theorem contribInt_eq_pyInt (meta : GroupMeta) :
    contribInt meta = pyInt ((meta.len : ℚ) * meta.ratio) := by
  have h : (meta.len : ℚ) * meta.ratio =
      (((meta.len : ℤ) * meta.ratio.num : ℤ) : ℚ) / ((meta.ratio.den : ℕ) : ℚ) := by
    conv_lhs => rw [← Rat.num_div_den meta.ratio]
    push_cast
    ring
  rw [contribInt, h, pyInt_intCast_div_natCast _ _ meta.ratio.pos]

theorem contribInt_ratio_one (meta : GroupMeta) (h : meta.ratio = 1) :
    contribInt meta = meta.len := by
  rw [contribInt_eq_pyInt, h, mul_one, pyInt, if_pos (by positivity)]
  exact Int.floor_natCast meta.len

theorem contribInt_nonneg (meta : GroupMeta) (h : 0 ≤ meta.ratio) :
    0 ≤ contribInt meta := by
  rw [contribInt_eq_pyInt, pyInt, if_pos (by positivity)]
  exact Int.floor_nonneg.mpr (by positivity)

theorem contribInt_le_len (meta : GroupMeta) (h0 : 0 ≤ meta.ratio)
    (h1 : meta.ratio ≤ 1) : contribInt meta ≤ meta.len := by
  rw [contribInt_eq_pyInt, pyInt, if_pos (by positivity)]
  calc ⌊(meta.len : ℚ) * meta.ratio⌋ ≤ ⌊(meta.len : ℚ)⌋ :=
        Int.floor_le_floor (mul_le_of_le_one_right (by positivity) h1)
    _ = meta.len := Int.floor_natCast meta.len

/-! ## Shuffle and choice are permutations / sub-multisets -/

theorem getD_cons_eraseIdx_perm {l : List α} (a : α) (j : Nat) (hj : j < l.length) :
    (l.getD j a :: l.eraseIdx j).Perm l := by
  have hget : l.getD j a = l[j] := List.getD_eq_getElem l a hj
  have herase : l.eraseIdx j = l.take j ++ l.drop (j + 1) :=
    List.eraseIdx_eq_take_drop_succ l j
  have hl : l = l.take j ++ l[j] :: l.drop (j + 1) := by
    conv_lhs => rw [← List.take_append_drop j l]
    rw [List.drop_eq_getElem_cons hj]
  rw [hget, herase]
  conv_rhs => rw [hl]
  exact (List.perm_middle).symm

theorem shuffleFuel_perm (fuel : Nat) (g : Nat) (l : List α) :
    (shuffleFuel fuel g l).1.Perm l := by
  induction fuel generalizing g l with
  | zero => simp [shuffleFuel]
  | succ fuel ih =>
      cases l with
      | nil => simp [shuffleFuel]
      | cons a as =>
          simp only [shuffleFuel]
          have hj : lcgStep g % (a :: as).length < (a :: as).length :=
            Nat.mod_lt _ (by simp)
          exact ((ih _ _).cons _).trans (getD_cons_eraseIdx_perm a _ hj)

theorem shuffleGo_perm (g : Nat) (l : List α) : (shuffleGo g l).1.Perm l :=
  shuffleFuel_perm l.length g l

theorem shuffleGo_length (g : Nat) (l : List α) : (shuffleGo g l).1.length = l.length :=
  (shuffleGo_perm g l).length_eq

theorem rngChoice_ok (g : Nat) (l : List α) (k : Int) (h0 : 0 ≤ k)
    (hk : k ≤ (l.length : Int)) :
    ∃ chosen g1, rngChoice g l k = .ok (chosen, g1) ∧
      chosen.length = k.toNat ∧ (chosen : Multiset α) ≤ (l : Multiset α) := by
  rw [rngChoice, if_neg (by omega)]
  have hperm := shuffleFuel_perm l.length g l
  refine ⟨_, _, rfl, ?_, ?_⟩
  · rw [List.length_take, hperm.length_eq]
    omega
  · calc ((shuffleFuel l.length g l).1.take k.toNat : Multiset α)
        ≤ ((shuffleFuel l.length g l).1 : Multiset α) :=
          (List.take_sublist _ _).subperm
      _ = (l : Multiset α) := Multiset.coe_eq_coe.mpr hperm

/-! ## `pyChunks` -/

theorem pyChunksF_fuel_irrel (c : Nat) :
    ∀ f₁ f₂ (l : List α), l.length ≤ f₁ → l.length ≤ f₂ →
      pyChunksF c f₁ l = pyChunksF c f₂ l := by
  intro f₁
  induction f₁ with
  | zero =>
      intro f₂ l h1 _
      have : l = [] := by
        cases l
        · rfl
        · simp at h1
      subst this
      cases f₂ <;> rfl
  | succ f₁ ih =>
      intro f₂ l h1 h2
      cases l with
      | nil => cases f₂ <;> rfl
      | cons a as =>
          obtain ⟨f₂', rfl⟩ : ∃ f₂', f₂ = f₂' + 1 := by
            cases f₂
            · simp at h2
            · exact ⟨_, rfl⟩
          simp only [pyChunksF]
          by_cases hc : c = 0
          · simp [hc]
          · simp only [hc, if_false]
            congr 1
            apply ih
            · simp at h1 ⊢; omega
            · simp at h2 ⊢; omega

theorem pyChunks_nil (c : Nat) : pyChunks c ([] : List α) = [] := rfl

theorem pyChunks_cons (c : Nat) (hc : 0 < c) (l : List α) (hl : l ≠ []) :
    pyChunks c l = l.take c :: pyChunks c (l.drop c) := by
  obtain ⟨a, as, rfl⟩ : ∃ a as, l = a :: as := by
    cases l
    · exact absurd rfl hl
    · exact ⟨_, _, rfl⟩
  show pyChunksF c (as.length + 1) (a :: as) = _
  simp only [pyChunksF, Nat.pos_iff_ne_zero.mp hc, if_false]
  congr 1
  apply pyChunksF_fuel_irrel
  · simp; omega
  · simp

theorem pyChunks_flatten (c : Nat) (hc : 0 < c) (l : List α) :
    (pyChunks c l).flatten = l := by
  have key : ∀ n (l : List α), l.length = n → (pyChunks c l).flatten = l := by
    intro n
    induction n using Nat.strong_induction_on with
    | _ n ih =>
        intro l hn
        subst hn
        cases l with
        | nil => rfl
        | cons a as =>
            rw [pyChunks_cons c hc _ (by simp), List.flatten_cons,
              ih ((a :: as).drop c).length (by simp; omega) _ rfl,
              List.take_append_drop]
  exact key l.length l rfl

theorem pyChunks_length_mem (c : Nat) (hc : 0 < c) (l : List α)
    (hdvd : c ∣ l.length) : ∀ ch ∈ pyChunks c l, ch.length = c := by
  have key : ∀ n (l : List α), l.length = n → c ∣ l.length →
      ∀ ch ∈ pyChunks c l, ch.length = c := by
    intro n
    induction n using Nat.strong_induction_on with
    | _ n ih =>
        intro l hn hd ch hch
        subst hn
        cases l with
        | nil => simp [pyChunks_nil] at hch
        | cons a as =>
            rw [pyChunks_cons c hc _ (by simp)] at hch
            have hlen : c ≤ (a :: as).length :=
              Nat.le_of_dvd (by simp) hd
            rcases List.mem_cons.mp hch with h | h
            · subst h
              simp only [List.length_take]
              omega
            · exact ih ((a :: as).drop c).length (by simp; omega) _ rfl
                (by simp only [List.length_drop]; exact Nat.dvd_sub' hd dvd_rfl) ch h
  exact key l.length l rfl hdvd

theorem pyChunks_count (c : Nat) (hc : 0 < c) (l : List α)
    (hdvd : c ∣ l.length) : (pyChunks c l).length = l.length / c := by
  have key : ∀ n (l : List α), l.length = n → c ∣ l.length →
      (pyChunks c l).length = l.length / c := by
    intro n
    induction n using Nat.strong_induction_on with
    | _ n ih =>
        intro l hn hd
        subst hn
        cases l with
        | nil => simp [pyChunks_nil]
        | cons a as =>
            rw [pyChunks_cons c hc _ (by simp)]
            have hlen : c ≤ (a :: as).length := Nat.le_of_dvd (by simp) hd
            rw [List.length_cons,
              ih ((a :: as).drop c).length (by simp; omega) _ rfl
                (by simp only [List.length_drop]; exact Nat.dvd_sub' hd dvd_rfl)]
            simp only [List.length_drop]
            obtain ⟨q, hq⟩ := hd
            have hq1 : 1 ≤ q := by
              rcases Nat.eq_zero_or_pos q with h0 | h0
              · rw [h0, Nat.mul_zero] at hq; simp at hq
              · exact h0
            have hsub : c * q - c = c * (q - 1) := by
              rw [Nat.mul_sub, Nat.mul_one]
            rw [hq, hsub, Nat.mul_div_cancel_left _ hc, Nat.mul_div_cancel_left _ hc]
            omega
  exact key l.length l rfl hdvd

theorem pyChunks_mem_subset (c : Nat) (hc : 0 < c) (l : List α)
    {ch : List α} (hch : ch ∈ pyChunks c l) : ch ⊆ l := by
  intro x hx
  rw [← pyChunks_flatten c hc l]
  exact List.mem_flatten.mpr ⟨ch, hch, hx⟩

/-! ## `pyRange` -/

theorem pyRange_stop_le (s n st : Nat) (h : n ≤ s) : pyRange s n st = [] := by
  rw [pyRange]
  by_cases hst : st = 0
  · simp [hst]
  · have : (n - s + st - 1) / st = 0 :=
      Nat.div_eq_of_lt (by omega)
    simp [hst, this]

theorem pyRange_cons (s n st : Nat) (h1 : s < n) (h2 : 0 < st) :
    pyRange s n st = s :: pyRange (s + st) n st := by
  rw [pyRange, pyRange, if_neg (by omega), if_neg (by omega)]
  have hcount : (n - s + st - 1) / st = (n - (s + st) + st - 1) / st + 1 := by
    by_cases hx : n - s ≤ st
    · have h1 : (n - s + st - 1) / st = 1 := by
        apply Nat.div_eq_of_lt_le <;> omega
      have h0 : (n - (s + st) + st - 1) / st = 0 :=
        Nat.div_eq_of_lt (by omega)
      rw [h1, h0]
    · have : n - s + st - 1 = (n - (s + st) + st - 1) + st := by omega
      rw [this, Nat.add_div_right _ h2]
  rw [hcount, List.range_succ_eq_map, List.map_cons, List.map_map]
  congr 1
  · omega
  · apply List.map_congr_left
    intro i _
    simp [Function.comp]
    ring

/-! ## Slicing a flat list of uniform-length blocks -/

theorem flatten_drop_uniform {L : List (List α)} {m : Nat}
    (h : ∀ p ∈ L, p.length = m) (u : Nat) :
    L.flatten.drop (u * m) = (L.drop u).flatten := by
  induction u generalizing L with
  | zero => simp
  | succ u ih =>
      cases L with
      | nil => simp
      | cons p ps =>
          have hp : p.length = m := h p (by simp)
          rw [List.flatten_cons, show (u + 1) * m = p.length + u * m by rw [hp]; ring,
            List.drop_append, ih (fun q hq => h q (by simp [hq]))]
          rfl

theorem flatten_take_uniform {L : List (List α)} {m : Nat}
    (h : ∀ p ∈ L, p.length = m) (u : Nat) :
    L.flatten.take (u * m) = (L.take u).flatten := by
  induction u generalizing L with
  | zero => simp
  | succ u ih =>
      cases L with
      | nil => simp
      | cons p ps =>
          have hp : p.length = m := h p (by simp)
          rw [List.flatten_cons, show (u + 1) * m = p.length + u * m by rw [hp]; ring,
            List.take_append, ih (fun q hq => h q (by simp [hq]))]
          rfl

theorem flatten_slice_uniform {L : List (List α)} {m : Nat}
    (h : ∀ p ∈ L, p.length = m) (a c : Nat) :
    (L.flatten.drop (a * m)).take (c * m) = ((L.drop a).take c).flatten := by
  rw [flatten_drop_uniform h a,
    flatten_take_uniform (fun q hq => h q (List.drop_subset _ _ hq)) c]

theorem mem_slice_flatten_uniform {L : List (List α)} {A : Nat}
    (h : ∀ p ∈ L, p.length = A) {u δ t : Nat} (hu : u < L.length)
    (hδ : δ + t ≤ A) :
    ∀ x ∈ (L.flatten.drop (u * A + δ)).take t, x ∈ L.getD u [] := by
  intro x hx
  rw [← List.drop_drop, flatten_drop_uniform h u,
    List.drop_eq_getElem_cons hu] at hx
  have hlen : L[u].length = A := h _ (List.getElem_mem hu)
  rw [List.flatten_cons,
    List.drop_append_of_le_length (by omega),
    List.take_append_of_le_length (by rw [List.length_drop]; omega)] at hx
  rw [List.getD_eq_getElem L [] hu]
  exact List.drop_subset _ _ (List.take_subset _ _ hx)

/-! ## The fixed-stride rank share -/

theorem pyRange_shift (s n st : Nat) (h : st ≤ s) :
    pyRange s n st = (pyRange (s - st) (n - st) st).map (· + st) := by
  have key : ∀ fuel s n, n - s ≤ fuel → st ≤ s →
      pyRange s n st = (pyRange (s - st) (n - st) st).map (· + st) := by
    intro fuel
    induction fuel with
    | zero =>
        intro s n hf hs
        rw [pyRange_stop_le _ _ _ (by omega), pyRange_stop_le _ _ _ (by omega)]
        rfl
    | succ fuel ih =>
        intro s n hf hs
        rcases Nat.eq_zero_or_pos st with hst | hst
        · subst hst
          rw [pyRange, pyRange, if_pos rfl, if_pos rfl]
          rfl
        · by_cases hsn : s < n
          · rw [pyRange_cons s n st hsn hst,
              pyRange_cons (s - st) (n - st) st (by omega) hst,
              List.map_cons, ih (s + st) n (by omega) (by omega)]
            congr 2
            · omega
            · congr 2
              omega
          · rw [pyRange_stop_le _ _ _ (by omega), pyRange_stop_le _ _ _ (by omega)]
            rfl
  exact key (n - s) s n le_rfl h

theorem ownIndices_eq_shareAux {l : List Nat} {r m w : Nat} (hm : 0 < m)
    (hr : r < w) (hdvd : w * m ∣ l.length) :
    ownIndices l r m w = shareAux r m w (l.length / (w * m)) l := by
  have key : ∀ fuel (l : List Nat), l.length ≤ fuel → w * m ∣ l.length →
      ownIndices l r m w = shareAux r m w (l.length / (w * m)) l := by
    intro fuel
    induction fuel with
    | zero =>
        intro l hf hd
        have h0 : l.length = 0 := by omega
        rw [ownIndices, h0, pyRange_stop_le _ _ _ (by omega), Nat.zero_div]
        rfl
    | succ fuel ih =>
        intro l hf hd
        rcases Nat.eq_zero_or_pos l.length with h0 | h0
        · rw [ownIndices, h0, pyRange_stop_le _ _ _ (by omega), Nat.zero_div]
          rfl
        · obtain ⟨q, hq⟩ := hd
          have hwm : 0 < w * m := by
            rcases Nat.eq_zero_or_pos (w * m) with h | h
            · rw [h, Nat.zero_mul] at hq; omega
            · exact h
          have hq1 : 1 ≤ q := by
            rcases Nat.eq_zero_or_pos q with h | h
            · rw [h, Nat.mul_zero] at hq; omega
            · exact h
          have hrm : r * m + m ≤ w * m := by
            have : (r + 1) * m ≤ w * m := Nat.mul_le_mul_right m hr
            calc r * m + m = (r + 1) * m := by ring
              _ ≤ w * m := this
          have hwml : w * m ≤ l.length := by
            rw [hq]
            exact Nat.le_mul_of_pos_right _ hq1
          have hcons : pyRange (r * m) l.length (w * m) =
              r * m :: pyRange (r * m + w * m) l.length (w * m) :=
            pyRange_cons _ _ _ (by omega) hwm
          have hshift : pyRange (r * m + w * m) l.length (w * m) =
              (pyRange (r * m) (l.length - w * m) (w * m)).map (· + w * m) := by
            rw [pyRange_shift _ _ _ (by omega)]
            congr 2
            omega
          rw [ownIndices, hcons, List.flatMap_cons, hshift, List.flatMap_map]
          have htail : (pyRange (r * m) (l.length - w * m) (w * m)).flatMap
              (fun p => (l.drop (p + w * m)).take m) =
              ownIndices (l.drop (w * m)) r m w := by
            rw [ownIndices, List.length_drop]
            apply List.flatMap_congr
            intro p _
            rw [List.drop_drop]
            congr 2
            omega
          rw [htail, ih (l.drop (w * m)) (by simp; omega)
            (by rw [List.length_drop, hq]
                exact ⟨q - 1, by rw [Nat.mul_sub, Nat.mul_one]⟩)]
          have hdivq : l.length / (w * m) = q := by
            rw [hq, Nat.mul_div_cancel_left _ hwm]
          have hdivq1 : (l.drop (w * m)).length / (w * m) = q - 1 := by
            rw [List.length_drop, hq, show w * m * q - w * m = w * m * (q - 1) by
              rw [Nat.mul_sub, Nat.mul_one], Nat.mul_div_cancel_left _ hwm]
          rw [hdivq, hdivq1, show q = (q - 1) + 1 by omega]
          rfl
  exact key l.length l le_rfl hdvd

theorem shareAux_length {r m w : Nat} (hr : r < w) :
    ∀ q (l : List α), l.length = w * m * q →
      (shareAux r m w q l).length = m * q := by
  intro q
  induction q with
  | zero => intro l _; rfl
  | succ q ih =>
      intro l hl
      have hrm : r * m + m ≤ w * m := by
        calc r * m + m = (r + 1) * m := by ring
          _ ≤ w * m := Nat.mul_le_mul_right m hr
      have hwml : w * m ≤ l.length := by
        rw [hl]; calc w * m = w * m * 1 := by ring
          _ ≤ w * m * (q + 1) := Nat.mul_le_mul_left _ (by omega)
      show ((l.drop (r * m)).take m ++ shareAux r m w q (l.drop (w * m))).length = _
      rw [List.length_append, List.length_take, List.length_drop,
        ih (l.drop (w * m)) (by rw [List.length_drop, hl]; ring_nf; omega)]
      have : min m (l.length - r * m) = m := by omega
      rw [this]
      ring

theorem sum_stride_pieces {m : Nat} :
    ∀ (w : Nat) (l : List α), w * m ≤ l.length →
      ∑ r ∈ Finset.range w, (((l.drop (r * m)).take m : Multiset α)) =
        ((l.take (w * m) : Multiset α)) := by
  intro w
  induction w with
  | zero => intro l _; simp
  | succ w ih =>
      intro l hl
      rw [Finset.sum_range_succ']
      have hstep : ∀ r : Nat, ((l.drop ((r + 1) * m)).take m : Multiset α) =
          (((l.drop m).drop (r * m)).take m : Multiset α) := by
        intro r
        rw [List.drop_drop]
        congr 2
        ring
      calc (∑ r ∈ Finset.range w, ((l.drop ((r + 1) * m)).take m : Multiset α)) +
            ((l.drop (0 * m)).take m : Multiset α)
          = (∑ r ∈ Finset.range w, (((l.drop m).drop (r * m)).take m : Multiset α)) +
            ((l.take m : Multiset α)) := by
            rw [Finset.sum_congr rfl (fun r _ => hstep r)]
            congr 2
            rw [Nat.zero_mul, List.drop_zero]
        _ = (((l.drop m).take (w * m) : Multiset α)) + ((l.take m : Multiset α)) := by
            rw [ih (l.drop m) (by
              rw [List.length_drop]
              have h' : (w + 1) * m = w * m + m := by ring
              omega)]
        _ = ((l.take ((w + 1) * m) : Multiset α)) := by
            rw [show (w + 1) * m = m + w * m by ring, List.take_add,
              ← Multiset.coe_add]
            exact add_comm _ _

theorem shareAux_sum_partition {m w : Nat} :
    ∀ q (l : List α), l.length = w * m * q →
      ∑ r ∈ Finset.range w, ((shareAux r m w q l : Multiset α)) =
        (l : Multiset α) := by
  intro q
  induction q with
  | zero =>
      intro l hl
      have : l = [] := List.length_eq_zero.mp (by omega)
      subst this
      simp [shareAux]
  | succ q ih =>
      intro l hl
      have hwml : w * m ≤ l.length := by
        rw [hl]
        calc w * m = w * m * 1 := by ring
          _ ≤ w * m * (q + 1) := Nat.mul_le_mul_left _ (by omega)
      calc ∑ r ∈ Finset.range w, ((shareAux r m w (q + 1) l : Multiset α))
          = ∑ r ∈ Finset.range w,
              (((l.drop (r * m)).take m : Multiset α) +
                ((shareAux r m w q (l.drop (w * m)) : Multiset α))) := by
            apply Finset.sum_congr rfl
            intro r _
            show ((((l.drop (r * m)).take m ++ shareAux r m w q (l.drop (w * m))) :
              List α) : Multiset α) = _
            rw [← Multiset.coe_add]
        _ = (∑ r ∈ Finset.range w, ((l.drop (r * m)).take m : Multiset α)) +
            ∑ r ∈ Finset.range w, ((shareAux r m w q (l.drop (w * m)) : Multiset α)) :=
            Finset.sum_add_distrib
        _ = ((l.take (w * m) : Multiset α)) + ((l.drop (w * m) : Multiset α)) := by
            rw [sum_stride_pieces w l hwml,
              ih (l.drop (w * m)) (by rw [List.length_drop, hl]; ring_nf; omega)]
        _ = (l : Multiset α) := by
            rw [Multiset.coe_add, List.take_append_drop]

theorem shareAux_eq_flatten_pieces (r m w : Nat) :
    ∀ q (l : List α), shareAux r m w q l =
      ((List.range q).map (fun k => (l.drop (w * m * k + r * m)).take m)).flatten := by
  intro q
  induction q with
  | zero => intro l; rfl
  | succ q ih =>
      intro l
      show (l.drop (r * m)).take m ++ shareAux r m w q (l.drop (w * m)) = _
      rw [List.range_succ_eq_map, List.map_cons, List.flatten_cons, ih (l.drop (w * m)),
        List.map_map]
      congr 2
      · rw [Nat.mul_zero, Nat.zero_add]
      · apply List.map_congr_left
        intro k _
        simp only [Function.comp]
        rw [List.drop_drop]
        congr 2
        rw [Nat.succ_eq_add_one]
        ring

/-! ## Association-list lemmas -/

theorem alistGet_nil (k : String) (d : β) : alistGet ([] : List (String × β)) k d = d :=
  rfl

theorem alistGet_cons_eq {k₀ k : String} (h : k₀ = k) (v : β)
    (rest : List (String × β)) (d : β) : alistGet ((k₀, v) :: rest) k d = v := by
  unfold alistGet
  rw [List.find?_cons_of_pos _ (by simp [h])]

theorem alistGet_cons_ne {k₀ k : String} (h : k₀ ≠ k) (v : β)
    (rest : List (String × β)) (d : β) :
    alistGet ((k₀, v) :: rest) k d = alistGet rest k d := by
  unfold alistGet
  rw [List.find?_cons_of_neg _ (by simp [h])]

theorem alistGet_upsert_self (acc : List (String × β)) (k : String) (f : β → β)
    (dflt : β) : alistGet (alistUpsert acc k f dflt) k dflt = f (alistGet acc k dflt) := by
  induction acc with
  | nil =>
      show alistGet [(k, f dflt)] k dflt = _
      rw [alistGet_cons_eq rfl, alistGet_nil]
  | cons kv rest ih =>
      obtain ⟨k₀, v⟩ := kv
      by_cases h : k₀ = k
      · simp only [alistUpsert, if_pos h]
        rw [alistGet_cons_eq h, alistGet_cons_eq h]
      · simp only [alistUpsert, if_neg h]
        rw [alistGet_cons_ne h, alistGet_cons_ne h]
        exact ih

theorem alistGet_upsert_ne (acc : List (String × β)) {k k' : String} (h : k' ≠ k)
    (f : β → β) (dflt d : β) :
    alistGet (alistUpsert acc k f dflt) k' d = alistGet acc k' d := by
  have hk : k ≠ k' := fun hh => h hh.symm
  induction acc with
  | nil =>
      show alistGet [(k, f dflt)] k' d = _
      rw [alistGet_cons_ne hk, alistGet_nil]
  | cons kv rest ih =>
      obtain ⟨k₀, v⟩ := kv
      by_cases h0 : k₀ = k
      · simp only [alistUpsert, if_pos h0]
        rw [alistGet_cons_ne (by rw [h0]; exact hk), alistGet_cons_ne (by rw [h0]; exact hk)]
      · simp only [alistUpsert, if_neg h0]
        by_cases h1 : k₀ = k'
        · rw [alistGet_cons_eq h1, alistGet_cons_eq h1]
        · rw [alistGet_cons_ne h1, alistGet_cons_ne h1]
          exact ih

theorem flattenValues_nil : flattenValues ([] : List (String × List γ)) = [] := rfl

theorem flattenValues_cons (k : String) (v : List γ) (rest : List (String × List γ)) :
    flattenValues ((k, v) :: rest) = v ++ flattenValues rest := by
  simp [flattenValues]

theorem flattenValues_upsert (acc : List (String × List γ)) (k : String)
    (chosen : List γ) :
    ((flattenValues (alistUpsert acc k (· ++ chosen) []) : List γ) : Multiset γ) =
      ((flattenValues acc : List γ) : Multiset γ) + (chosen : Multiset γ) := by
  induction acc with
  | nil =>
      show ((flattenValues [(k, [] ++ chosen)] : List γ) : Multiset γ) = _
      rw [flattenValues_cons, flattenValues_nil, List.nil_append, List.append_nil]
      simp
  | cons kv rest ih =>
      obtain ⟨k₀, v⟩ := kv
      by_cases h : k₀ = k
      · simp only [alistUpsert, if_pos h, flattenValues_cons]
        simp only [← Multiset.coe_add]
        abel
      · simp only [alistUpsert, if_neg h, flattenValues_cons]
        simp only [← Multiset.coe_add]
        rw [ih]
        abel

theorem mem_flattenValues {acc : List (String × List γ)} {kv : String × List γ}
    (hkv : kv ∈ acc) {p : γ} (hp : p ∈ kv.2) : p ∈ flattenValues acc :=
  List.mem_flatten.mpr ⟨kv.2, List.mem_map.mpr ⟨kv, hkv, rfl⟩, hp⟩

theorem mem_alistGet_upsert_self {acc : List (String × List γ)} {k : String}
    {chosen : List γ} {p : γ}
    (hp : p ∈ alistGet (alistUpsert acc k (· ++ chosen) []) k []) :
    p ∈ alistGet acc k [] ∨ p ∈ chosen := by
  rw [alistGet_upsert_self] at hp
  exact List.mem_append.mp hp

theorem forall₂_upsert {acc : List (String × List (Nat × Nat))}
    {accRaw : List (String × Int)} (hrel : List.Forall₂ EntryRel acc accRaw)
    (k : String) {chosen : List (Nat × Nat)} {c : Int}
    (hc : (chosen.length : Int) = c) :
    List.Forall₂ EntryRel (alistUpsert acc k (· ++ chosen) [])
      (alistUpsert accRaw k (· + c) 0) := by
  induction hrel with
  | nil =>
      simp only [alistUpsert]
      exact List.Forall₂.cons ⟨rfl, by simp [hc]⟩ List.Forall₂.nil
  | cons h t ih =>
      rename_i a b l₁ l₂
      obtain ⟨hk, hv⟩ := h
      obtain ⟨ka, va⟩ := a
      obtain ⟨kb, vb⟩ := b
      simp only at hk hv
      subst hk
      simp only [alistUpsert]
      by_cases hak : ka = k
      · rw [if_pos hak, if_pos hak]
        refine List.Forall₂.cons ⟨rfl, ?_⟩ t
        simp only [List.length_append]
        push_cast
        omega
      · rw [if_neg hak, if_neg hak]
        exact List.Forall₂.cons ⟨rfl, hv⟩ ih

/-! ## `groupOfAux` -/

theorem groupOfAux_some_le {metas : List GroupMeta} {off idx : Nat} {t : String}
    (h : groupOfAux metas off idx = some t) : off ≤ idx := by
  induction metas generalizing off with
  | nil => simp [groupOfAux] at h
  | cons meta rest ih =>
      rw [groupOfAux] at h
      split at h
      · next hc => exact hc.1
      · next hc => exact le_trans (Nat.le_add_right off meta.len) (ih h)

theorem groupOfAux_here {metas : List GroupMeta} {meta : GroupMeta} {off idx : Nat}
    (h1 : off ≤ idx) (h2 : idx < off + meta.len) :
    groupOfAux (meta :: metas) off idx = some meta.type := by
  simp only [groupOfAux, if_pos (And.intro h1 h2)]

theorem groupOfAux_there {metas : List GroupMeta} {meta : GroupMeta} {off idx : Nat}
    {t : String} (h : groupOfAux metas (off + meta.len) idx = some t) :
    groupOfAux (meta :: metas) off idx = some t := by
  have hge : off + meta.len ≤ idx := groupOfAux_some_le h
  rw [groupOfAux,
    if_neg (show ¬(off ≤ idx ∧ idx < off + meta.len) by omega)]
  exact h

/-! ## `allPairsFrom` -/

theorem partitionPairs_map_fst {start : Nat} {meta : GroupMeta}
    (h : meta.len = meta.item_len_list.length) :
    (partitionPairs start meta).map Prod.fst = List.range' start meta.len := by
  rw [partitionPairs, List.map_fst_zip]
  rw [List.length_range']
  omega

theorem allPairsFrom_map_fst {metas : List GroupMeta}
    (h : ∀ meta ∈ metas, meta.len = meta.item_len_list.length) (start : Nat) :
    (allPairsFrom start metas).map Prod.fst =
      List.range' start (datasetLen metas) := by
  induction metas generalizing start with
  | nil => simp [allPairsFrom, datasetLen]
  | cons meta rest ih =>
      rw [allPairsFrom, List.map_append,
        partitionPairs_map_fst (h meta (by simp)),
        ih (fun x hx => h x (by simp [hx])) (start + meta.len)]
      have hdl : datasetLen (meta :: rest) = meta.len + datasetLen rest := by
        simp [datasetLen]
      have happ := List.range'_append start meta.len (datasetLen rest) 1
      rw [one_mul] at happ
      rw [hdl, Nat.add_comm meta.len (datasetLen rest), ← happ]

theorem partitionPairs_length {start : Nat} {meta : GroupMeta}
    (h : meta.len = meta.item_len_list.length) :
    (partitionPairs start meta).length = meta.len := by
  rw [partitionPairs, List.length_zip, List.length_range']
  omega

/-! ## The partition loop (`buildGroups`) -/

theorem partitionSelect_spec (g start : Nat) (meta : GroupMeta)
    (hlen : meta.len = meta.item_len_list.length)
    (h0 : 0 ≤ meta.ratio) (h1 : meta.ratio ≤ 1) :
    ∃ chosen g1, partitionSelect g start meta = .ok (chosen, g1) ∧
      (chosen.length : Int) = contribInt meta ∧
      ((chosen : List (Nat × Nat)) : Multiset (Nat × Nat)) ≤
        ((partitionPairs start meta : List (Nat × Nat)) : Multiset (Nat × Nat)) ∧
      (meta.ratio = 1 → chosen = partitionPairs start meta) := by
  rw [partitionSelect, if_neg (not_ne_iff.mpr hlen)]
  by_cases hr : meta.ratio = 1
  · rw [if_neg (not_ne_iff.mpr hr)]
    refine ⟨_, _, rfl, ?_, le_refl _, fun _ => rfl⟩
    rw [partitionPairs_length hlen, contribInt_ratio_one meta hr]
  · rw [if_pos hr]
    have hnn : 0 ≤ contribInt meta := contribInt_nonneg meta h0
    have hle : contribInt meta ≤ ((partitionPairs start meta).length : Int) := by
      rw [partitionPairs_length hlen]
      exact contribInt_le_len meta h0 h1
    obtain ⟨chosen, g1, hch, hlen', hsub⟩ :=
      rngChoice_ok g (partitionPairs start meta) (contribInt meta) hnn hle
    exact ⟨chosen, g1, hch, by rw [hlen', Int.toNat_of_nonneg hnn], hsub,
      fun h => absurd h hr⟩

theorem mem_upsert_cases {acc : List (String × List γ)} {k k' : String}
    {chosen v' : List γ} (h : (k', v') ∈ alistUpsert acc k (· ++ chosen) []) :
    (k', v') ∈ acc ∨
      (k' = k ∧ ∃ v₀, ((k, v₀) ∈ acc ∨ v₀ = ([] : List γ)) ∧ v' = v₀ ++ chosen) := by
  induction acc with
  | nil =>
      simp only [alistUpsert, List.mem_singleton, Prod.mk.injEq] at h
      exact Or.inr ⟨h.1, [], Or.inr rfl, h.2⟩
  | cons kv rest ih =>
      obtain ⟨k₀, v⟩ := kv
      by_cases h0 : k₀ = k
      · subst h0
        simp only [alistUpsert, if_pos rfl] at h
        rcases List.mem_cons.mp h with hhead | htail
        · rw [Prod.mk.injEq] at hhead
          exact Or.inr ⟨hhead.1, v, Or.inl (List.mem_cons_self _ _), hhead.2⟩
        · exact Or.inl (List.mem_cons_of_mem _ htail)
      · simp only [alistUpsert, if_neg h0] at h
        rcases List.mem_cons.mp h with hhead | htail
        · exact Or.inl (hhead ▸ List.mem_cons_self _ _)
        · rcases ih htail with hin | ⟨hk, v₀, hv₀, hv'⟩
          · exact Or.inl (List.mem_cons_of_mem _ hin)
          · refine Or.inr ⟨hk, v₀, ?_, hv'⟩
            rcases hv₀ with hv₀ | hv₀
            · exact Or.inl (List.mem_cons_of_mem _ hv₀)
            · exact Or.inr hv₀

theorem buildGroupsGo_spec :
    ∀ (metas : List GroupMeta) (g start : Nat)
      (acc : List (String × List (Nat × Nat))) (accRaw : List (String × Int)),
      (∀ meta ∈ metas,
        meta.len = meta.item_len_list.length ∧ 0 ≤ meta.ratio ∧ meta.ratio ≤ 1) →
      List.Forall₂ EntryRel acc accRaw →
      ∃ R g1, buildGroupsGo g start acc metas = .ok (R, g1) ∧
        List.Forall₂ EntryRel R
          (metas.foldl
            (fun a meta => alistUpsert a meta.type (· + contribInt meta) 0) accRaw) ∧
        ((flattenValues R : List (Nat × Nat)) : Multiset (Nat × Nat)) ≤
          ((flattenValues acc : List (Nat × Nat)) : Multiset (Nat × Nat)) +
            ((allPairsFrom start metas : List (Nat × Nat)) : Multiset (Nat × Nat)) ∧
        (∀ kv ∈ R, ∀ p ∈ kv.2,
          (∃ v', (kv.1, v') ∈ acc ∧ p ∈ v') ∨
            groupOfAux metas start p.1 = some kv.1) := by
  intro metas
  induction metas with
  | nil =>
      intro g start acc accRaw _ hrel
      refine ⟨acc, g, rfl, hrel, ?_, ?_⟩
      · simp [allPairsFrom]
      · intro kv hkv p hp
        exact Or.inl ⟨kv.2, by rw [← Prod.mk.eta (p := kv)] at hkv; exact hkv, hp⟩
  | cons meta rest ih =>
      intro g start acc accRaw hwf hrel
      obtain ⟨hlen, h0, h1⟩ := hwf meta (by simp)
      obtain ⟨chosen, g1, hsel, hclen, hcsub, _⟩ :=
        partitionSelect_spec g start meta hlen h0 h1
      obtain ⟨R, g2, hrun, hfor, hmul, hcont⟩ :=
        ih g1 (start + meta.len) (alistUpsert acc meta.type (· ++ chosen) [])
          (alistUpsert accRaw meta.type (· + contribInt meta) 0)
          (fun x hx => hwf x (by simp [hx]))
          (forall₂_upsert hrel meta.type hclen)
      refine ⟨R, g2, ?_, ?_, ?_, ?_⟩
      · rw [buildGroupsGo, hsel]
        exact hrun
      · rw [List.foldl_cons]
        exact hfor
      · calc ((flattenValues R : List (Nat × Nat)) : Multiset (Nat × Nat))
            ≤ ((flattenValues (alistUpsert acc meta.type (· ++ chosen) []) :
                List (Nat × Nat)) : Multiset (Nat × Nat)) +
              ((allPairsFrom (start + meta.len) rest : List (Nat × Nat)) :
                Multiset (Nat × Nat)) := hmul
          _ = (((flattenValues acc : List (Nat × Nat)) : Multiset (Nat × Nat)) +
                (chosen : Multiset (Nat × Nat))) +
              ((allPairsFrom (start + meta.len) rest : List (Nat × Nat)) :
                Multiset (Nat × Nat)) := by
              rw [flattenValues_upsert]
          _ ≤ (((flattenValues acc : List (Nat × Nat)) : Multiset (Nat × Nat)) +
                ((partitionPairs start meta : List (Nat × Nat)) :
                  Multiset (Nat × Nat))) +
              ((allPairsFrom (start + meta.len) rest : List (Nat × Nat)) :
                Multiset (Nat × Nat)) :=
              add_le_add_right (add_le_add_left hcsub _) _
          _ = ((flattenValues acc : List (Nat × Nat)) : Multiset (Nat × Nat)) +
              ((allPairsFrom start (meta :: rest) : List (Nat × Nat)) :
                Multiset (Nat × Nat)) := by
              rw [add_assoc, allPairsFrom, Multiset.coe_add]
      · intro kv hkv p hp
        rcases hcont kv hkv p hp with ⟨v', hv'mem, hpv'⟩ | hgrp
        · rcases mem_upsert_cases hv'mem with hmem | ⟨hkey, v₀, hv₀, rfl⟩
          · exact Or.inl ⟨v', hmem, hpv'⟩
          · rcases List.mem_append.mp hpv' with hp0 | hpch
            · rcases hv₀ with hv₀acc | rfl
              · exact Or.inl ⟨v₀, hkey ▸ hv₀acc, hp0⟩
              · simp at hp0
            · right
              have hpairs : p ∈ partitionPairs start meta :=
                Multiset.mem_coe.mp (Multiset.mem_of_le hcsub
                  (Multiset.mem_coe.mpr hpch))
              have hfst : p.1 ∈ (partitionPairs start meta).map Prod.fst :=
                List.mem_map.mpr ⟨p, hpairs, rfl⟩
              rw [partitionPairs_map_fst hlen, List.mem_range'_1] at hfst
              rw [hkey]
              exact groupOfAux_here hfst.1 hfst.2
        · exact Or.inr (groupOfAux_there hgrp)

/-! ## Integer-cast helpers -/

theorem natCast_fdiv (a b : Nat) :
    ((a : Int)).fdiv (b : Int) = ((a / b : Nat) : Int) := by
  rw [Int.fdiv_eq_ediv _ (by positivity), Int.natCast_div]

/-! ## Ordering stage (`orderGroups`) -/

theorem mapShuffle_forall₂ (g : Nat) (L : List (List Nat)) :
    List.Forall₂ List.Perm (mapShuffle g L).1 L := by
  induction L generalizing g with
  | nil => exact List.Forall₂.nil
  | cons ch rest ih =>
      rcases hsh : shuffleGo g ch with ⟨sh, g1⟩
      rcases hms : mapShuffle g1 rest with ⟨rest', g2⟩
      simp only [mapShuffle, hsh, hms]
      refine List.Forall₂.cons ?_ ?_
      · have := shuffleGo_perm g ch
        rw [hsh] at this
        exact this
      · have := ih g1
        rw [hms] at this
        exact this

theorem flatten_perm_forall₂ {L₁ L₂ : List (List α)}
    (h : List.Forall₂ List.Perm L₁ L₂) : L₁.flatten.Perm L₂.flatten := by
  induction h with
  | nil => exact List.Perm.refl _
  | cons h _ ih => exact h.append ih

theorem clusterShuffle_perm (g B : Nat) (l : List Nat) (hB : 0 < B) :
    (clusterShuffle g B l).1.Perm l := by
  rcases hms : mapShuffle g (pyChunks B l) with ⟨chs, g1⟩
  have h1 : List.Forall₂ List.Perm chs (pyChunks B l) := by
    have := mapShuffle_forall₂ g (pyChunks B l)
    rw [hms] at this
    exact this
  simp only [clusterShuffle, hms]
  calc chs.flatten.Perm (pyChunks B l).flatten := flatten_perm_forall₂ h1
    _ = l := pyChunks_flatten B hB l

theorem alistMapState_forall₂ {f : Nat → β → γ × Nat} {r : γ → β → Prop}
    (hf : ∀ g v, r (f g v).1 v) (g : Nat) (l : List (String × β)) :
    List.Forall₂ (fun a b => a.1 = b.1 ∧ r a.2 b.2) (alistMapState f g l).1 l := by
  induction l generalizing g with
  | nil => exact List.Forall₂.nil
  | cons kv rest ih =>
      obtain ⟨k, v⟩ := kv
      rcases hfv : f g v with ⟨v', g1⟩
      rcases hms : alistMapState f g1 rest with ⟨rest', g2⟩
      simp only [alistMapState, hfv, hms]
      refine List.Forall₂.cons ⟨rfl, ?_⟩ ?_
      · have := hf g v
        rw [hfv] at this
        exact this
      · have := ih g1
        rw [hms] at this
        exact this

/-- Each ordered group keeps its key and holds a permutation of its
(truncated) pairs' indices. -/
theorem orderGroups_forall₂ (g : Nat) (lc : Bool) (B : Nat)
    (tg : List (String × List (Nat × Nat))) (hB : 0 < B) :
    List.Forall₂ (fun (a : String × List Nat) (b : String × List (Nat × Nat)) =>
      a.1 = b.1 ∧ a.2.Perm (b.2.map Prod.fst)) (orderGroups g lc B tg).1 tg := by
  cases lc with
  | true =>
      rw [orderGroups]
      simp only [if_pos]
      have h1 := alistMapState_forall₂
        (f := fun g l => clusterShuffle g B l) (r := fun a b => a.Perm b)
        (fun g v => clusterShuffle_perm g B v hB) g
        (tg.map (fun kv => (kv.1, (sortByLen kv.2).map (·.1))))
      rw [List.forall₂_map_right_iff] at h1
      refine h1.imp ?_
      intro a b hab
      refine ⟨hab.1, ?_⟩
      exact hab.2.trans (List.Perm.map _ (List.mergeSort_perm _ _))
  | false =>
      rw [orderGroups]
      simp only [Bool.false_eq_true, if_false]
      have h1 := alistMapState_forall₂
        (f := fun g pairs =>
          let (sh, g1) := shuffleGo g pairs
          (sh.map (·.1), g1))
        (r := fun (a : List Nat) (b : List (Nat × Nat)) => a.Perm (b.map Prod.fst))
        (fun g v => by
          rcases hsh : shuffleGo g v with ⟨sh, g1⟩
          simp only [hsh]
          have := shuffleGo_perm g v
          rw [hsh] at this
          exact this.map _) g tg
      exact h1

/-! ## Batching stage (`batchStage`) -/

theorem flatten_map_flatten (CL : List (List (List α))) :
    (CL.map List.flatten).flatten = CL.flatten.flatten := by
  induction CL with
  | nil => rfl
  | cons c cl ih => simp [List.flatten_append, ih]

theorem flatten_length_uniform {L : List (List α)} {m : Nat}
    (h : ∀ p ∈ L, p.length = m) : L.flatten.length = L.length * m := by
  induction L with
  | nil => simp
  | cons p ps ih =>
      simp only [List.flatten_cons, List.length_append, List.length_cons,
        h p (by simp), ih (fun q hq => h q (by simp [hq]))]
      ring

theorem accUnitsForGroup_spec (g gbs acc : Nat) (hgbs : 0 < gbs) (hacc : 0 < acc)
    (v : List Nat) (hdvd : gbs * acc ∣ v.length) :
    (accUnitsForGroup g gbs acc v).1.flatten.Perm v ∧
      ∀ u ∈ (accUnitsForGroup g gbs acc v).1, u.length = gbs * acc ∧ u ⊆ v := by
  have hgv : gbs ∣ v.length := dvd_trans (Dvd.intro acc (by ring)) hdvd
  rcases hsh : shuffleGo g (pyChunks gbs v) with ⟨sh, g1⟩
  have hperm : sh.Perm (pyChunks gbs v) := by
    have := shuffleGo_perm g (pyChunks gbs v)
    rw [hsh] at this
    exact this
  have hchlen : ∀ ch ∈ sh, ch.length = gbs := fun ch hch =>
    pyChunks_length_mem gbs hgbs v hgv ch (hperm.mem_iff.mp hch)
  have hchsub : ∀ ch ∈ sh, ch ⊆ v := fun ch hch =>
    pyChunks_mem_subset gbs hgbs v (hperm.mem_iff.mp hch)
  have hshlen : acc ∣ sh.length := by
    rw [hperm.length_eq, pyChunks_count gbs hgbs v hgv]
    obtain ⟨t, ht⟩ := hdvd
    rw [ht, show gbs * acc * t = gbs * (acc * t) by ring,
      Nat.mul_div_cancel_left _ hgbs]
    exact Dvd.intro t rfl
  constructor
  · simp only [accUnitsForGroup, hsh]
    have h2 : ((pyChunks acc sh).map List.flatten).flatten = sh.flatten := by
      rw [flatten_map_flatten, pyChunks_flatten acc hacc sh]
    rw [h2]
    have h3 : sh.flatten.Perm ((pyChunks gbs v).flatten) := hperm.flatten
    rw [pyChunks_flatten gbs hgbs v] at h3
    exact h3
  · intro u hu
    simp only [accUnitsForGroup, hsh] at hu
    obtain ⟨sc, hsc, rfl⟩ := List.mem_map.mp hu
    have hsclen : sc.length = acc :=
      pyChunks_length_mem acc hacc sh hshlen sc hsc
    have hscsub : sc ⊆ sh := pyChunks_mem_subset acc hacc sh hsc
    constructor
    · rw [flatten_length_uniform (fun p hp => hchlen p (hscsub hp)), hsclen]
      ring
    · intro x hx
      obtain ⟨ch, hch, hxch⟩ := List.mem_flatten.mp hx
      exact hchsub ch (hscsub hch) hxch

theorem batchStageGo_spec (gbs acc : Nat) (hgbs : 0 < gbs) (hacc : 0 < acc) :
    ∀ (GI : List (String × List Nat)) (g : Nat),
      (∀ kv ∈ GI, gbs * acc ∣ kv.2.length) →
      (batchStageGo g gbs acc GI).1.flatten.Perm (flattenValues GI) ∧
      ∀ u ∈ (batchStageGo g gbs acc GI).1,
        u.length = gbs * acc ∧ ∃ kv ∈ GI, u ⊆ kv.2 := by
  intro GI
  induction GI with
  | nil =>
      intro g _
      constructor
      · exact List.Perm.refl _
      · intro u hu
        simp [batchStageGo] at hu
  | cons kv rest ih =>
      intro g hdvd
      obtain ⟨k, v⟩ := kv
      rcases hau : accUnitsForGroup g gbs acc v with ⟨units, g1⟩
      rcases hbs : batchStageGo g1 gbs acc rest with ⟨restU, g2⟩
      have hspec := accUnitsForGroup_spec g gbs acc hgbs hacc v
        (hdvd (k, v) (by simp))
      rw [hau] at hspec
      have hrest := ih g1 (fun x hx => hdvd x (by simp [hx]))
      rw [hbs] at hrest
      constructor
      · simp only [batchStageGo, hau, hbs, List.flatten_append]
        rw [flattenValues_cons]
        exact hspec.1.append hrest.1
      · intro u hu
        simp only [batchStageGo, hau, hbs] at hu
        rcases List.mem_append.mp hu with h | h
        · obtain ⟨hlen, hsub⟩ := hspec.2 u h
          exact ⟨hlen, (k, v), by simp, hsub⟩
        · obtain ⟨hlen, kv', hkv', hsub⟩ := hrest.2 u h
          exact ⟨hlen, kv', by simp [hkv'], hsub⟩

theorem flatten_flatten_map_chunks (gbs : Nat) (hgbs : 0 < gbs)
    (GI : List (String × List Nat)) :
    ((GI.map (fun kv => pyChunks gbs kv.2)).flatten).flatten = flattenValues GI := by
  induction GI with
  | nil => rfl
  | cons kv rest ih =>
      obtain ⟨k, v⟩ := kv
      simp only [List.map_cons, List.flatten_cons, List.flatten_append,
        pyChunks_flatten gbs hgbs, ih, flattenValues_cons]

theorem batchStage_flatten_perm (g : Nat) (mixed : Bool) (gbs acc : Nat)
    (hgbs : 0 < gbs) (hacc : 0 < acc) (GI : List (String × List Nat))
    (hdvd : ∀ kv ∈ GI, gbs * acc ∣ kv.2.length) :
    (batchStage g mixed gbs acc GI).1.flatten.Perm (flattenValues GI) := by
  cases mixed with
  | true =>
      rw [batchStage]
      simp only [if_pos]
      rw [flatten_flatten_map_chunks gbs hgbs GI]
  | false =>
      rw [batchStage]
      simp only [Bool.false_eq_true, if_false]
      exact (batchStageGo_spec gbs acc hgbs hacc GI g hdvd).1

/-! ## Truncation stage (`truncGroups`) -/

theorem truncGroups_forall₂ {R : List (String × List (Nat × Nat))}
    {Raw : List (String × Int)} (h : List.Forall₂ EntryRel R Raw) (A : Nat) :
    List.Forall₂ EntryRel (truncGroups A R)
      (Raw.map (fun kv => (kv.1, kv.2.fdiv A * A))) := by
  rw [truncGroups, List.forall₂_map_left_iff, List.forall₂_map_right_iff]
  refine h.imp ?_
  intro a b hab
  obtain ⟨hk, hv⟩ := hab
  refine ⟨hk, ?_⟩
  simp only [List.length_take]
  have hle : a.2.length / A * A ≤ a.2.length := Nat.div_mul_le_self _ _
  rw [min_eq_left hle]
  push_cast
  rw [← hv, Int.fdiv_eq_ediv _ (by positivity)]

theorem forall₂_sum_length {R : List (String × List (Nat × Nat))}
    {Raw : List (String × Int)} (h : List.Forall₂ EntryRel R Raw) :
    ((flattenValues R).length : Int) = (Raw.map (·.2)).sum := by
  induction h with
  | nil => rfl
  | cons hab _ ih =>
      rename_i a b l₁ l₂
      obtain ⟨k, v⟩ := a
      rw [flattenValues_cons, List.length_append, List.map_cons, List.sum_cons]
      push_cast
      rw [ih]
      obtain ⟨hk, hv⟩ := hab
      simp only at hv
      rw [hv]

theorem truncGroups_dvd (A : Nat) (R : List (String × List (Nat × Nat))) :
    ∀ kv ∈ truncGroups A R, A ∣ kv.2.length := by
  intro kv hkv
  obtain ⟨kv₀, _, rfl⟩ := List.mem_map.mp hkv
  simp only [List.length_take]
  rw [min_eq_left (Nat.div_mul_le_self _ _)]
  exact dvd_mul_left A _

theorem flattenValues_truncGroups_le (A : Nat)
    (R : List (String × List (Nat × Nat))) :
    ((flattenValues (truncGroups A R) : List (Nat × Nat)) : Multiset (Nat × Nat)) ≤
      ((flattenValues R : List (Nat × Nat)) : Multiset (Nat × Nat)) := by
  induction R with
  | nil => exact le_refl _
  | cons kv rest ih =>
      obtain ⟨k, v⟩ := kv
      rw [truncGroups, List.map_cons, flattenValues_cons, flattenValues_cons,
        ← truncGroups]
      simp only [← Multiset.coe_add]
      exact add_le_add ((List.take_sublist _ _).subperm) ih

theorem truncGroups_cont {metas : List GroupMeta}
    {R : List (String × List (Nat × Nat))}
    (hcont : ∀ kv ∈ R, ∀ p ∈ kv.2, groupOfAux metas 0 p.1 = some kv.1) (A : Nat) :
    ∀ kv ∈ truncGroups A R, ∀ p ∈ kv.2, groupOfAux metas 0 p.1 = some kv.1 := by
  intro kv hkv p hp
  obtain ⟨kv₀, hkv₀, rfl⟩ := List.mem_map.mp hkv
  exact hcont kv₀ hkv₀ p (List.take_subset _ _ hp)

/-! ## `Forall₂` plumbing -/

theorem forall₂_mem_left {r : α → β → Prop} {l₁ : List α} {l₂ : List β}
    (h : List.Forall₂ r l₁ l₂) {a : α} (ha : a ∈ l₁) : ∃ b ∈ l₂, r a b := by
  induction h with
  | nil => simp at ha
  | cons hab _ ih =>
      rcases List.mem_cons.mp ha with rfl | hmem
      · exact ⟨_, by simp, hab⟩
      · obtain ⟨b, hb, hr⟩ := ih hmem
        exact ⟨b, by simp [hb], hr⟩

theorem flattenValues_cons' (kv : String × List γ) (rest : List (String × List γ)) :
    flattenValues (kv :: rest) = kv.2 ++ flattenValues rest := by
  obtain ⟨k, v⟩ := kv
  exact flattenValues_cons k v rest

theorem flattenValues_perm_forall₂ {GI : List (String × List Nat)}
    {tg : List (String × List (Nat × Nat))}
    (h : List.Forall₂ (fun (a : String × List Nat) (b : String × List (Nat × Nat)) =>
      a.1 = b.1 ∧ a.2.Perm (b.2.map Prod.fst)) GI tg) :
    (flattenValues GI).Perm ((flattenValues tg).map Prod.fst) := by
  induction h with
  | nil => exact List.Perm.refl _
  | cons hab _ ih =>
      rw [flattenValues_cons', flattenValues_cons', List.map_append]
      exact hab.2.append ih

theorem flattenValues_length_dvd {A : Nat} {tg : List (String × List (Nat × Nat))}
    (h : ∀ kv ∈ tg, A ∣ kv.2.length) : A ∣ (flattenValues tg).length := by
  induction tg with
  | nil => simp [flattenValues_nil]
  | cons kv rest ih =>
      obtain ⟨k, v⟩ := kv
      rw [flattenValues_cons, List.length_append]
      exact dvd_add (h (k, v) (by simp))
        (ih (fun x hx => h x (by simp [hx])))

/-! ## The assembled per-epoch global permutation -/

theorem globalIndices_eq (s : LuminaPickleSampler)
    {R : List (String × List (Nat × Nat))} {g1 : Nat} {GI : List (String × List Nat)}
    {g2 : Nat} {units shUnits : List (List Nat)} {g3 g4 : Nat}
    (hrun : buildGroups (s.seed + s.epoch) s.meta_list = .ok (R, g1))
    (hsh : s.shuffle = true)
    (hog : orderGroups g1 s.length_clustering (s.globalBatchSize * 500)
      (truncGroups s.globalBszAcc R) = (GI, g2))
    (hbs : batchStage g2 s.allow_mixed_task_among_acc s.globalBatchSize
      s.acc_grad GI = (units, g3))
    (hfs : shuffleGo g3 units = (shUnits, g4)) :
    s.globalIndices =
      if (shUnits.flatten.length : Int) ≠ totalSize s.meta_list s.globalBszAcc
      then .error "AssertionError" else .ok shUnits.flatten := by
  simp only [LuminaPickleSampler.globalIndices, hrun, hsh, hog, hbs, hfs, if_true,
    Bind.bind, Except.bind]


theorem iterPipeline_spec (s : LuminaPickleSampler)
    (hm : 0 < s.micro_batch_size) (hw : 0 < s.num_replicas) (ha : 0 < s.acc_grad)
    (hwf : MetasWF s.meta_list) (hsh : s.shuffle = true) :
    ∃ indices : List Nat,
      s.globalIndices = .ok indices ∧
      ((indices.length : Int) = totalSize s.meta_list s.globalBszAcc) ∧
      s.globalBszAcc ∣ indices.length ∧
      indices.Nodup ∧
      (s.allow_mixed_task_among_acc = false →
        ∃ units : List (List Nat), indices = units.flatten ∧
          ∀ u ∈ units, u.length = s.globalBszAcc ∧
            ∃ gname, ∀ i ∈ u, groupOf s.meta_list i = some gname) := by
  have hgbs : 0 < s.globalBatchSize := Nat.mul_pos hm hw
  have hA : s.globalBszAcc = s.globalBatchSize * s.acc_grad := rfl
  -- stage 1: partition loop
  obtain ⟨R, g1, hrun, hfor, hmul0, hcont0⟩ :=
    buildGroupsGo_spec s.meta_list (s.seed + s.epoch) 0 [] [] hwf List.Forall₂.nil
  have hmulR : ((flattenValues R : List (Nat × Nat)) : Multiset (Nat × Nat)) ≤
      ((allPairsFrom 0 s.meta_list : List (Nat × Nat)) : Multiset (Nat × Nat)) := by
    have := hmul0
    rw [flattenValues_nil] at this
    simpa using this
  have hcontR : ∀ kv ∈ R, ∀ p ∈ kv.2, groupOfAux s.meta_list 0 p.1 = some kv.1 := by
    intro kv hkv p hp
    rcases hcont0 kv hkv p hp with ⟨v', hv', _⟩ | h
    · simp at hv'
    · exact h
  -- stage 2: truncation
  have htgfor : List.Forall₂ EntryRel (truncGroups s.globalBszAcc R)
      (alignedGroupLen s.meta_list s.globalBszAcc) :=
    truncGroups_forall₂ hfor s.globalBszAcc
  have htgsum : ((flattenValues (truncGroups s.globalBszAcc R)).length : Int) =
      totalSize s.meta_list s.globalBszAcc := forall₂_sum_length htgfor
  have htgdvd := truncGroups_dvd s.globalBszAcc R
  have htgmul := flattenValues_truncGroups_le s.globalBszAcc R
  have htgcont := truncGroups_cont hcontR s.globalBszAcc
  -- stage 3: ordering
  rcases hog : orderGroups g1 s.length_clustering (s.globalBatchSize * 500)
      (truncGroups s.globalBszAcc R) with ⟨GI, g2⟩
  have hGIfor : List.Forall₂
      (fun (a : String × List Nat) (b : String × List (Nat × Nat)) =>
        a.1 = b.1 ∧ a.2.Perm (b.2.map Prod.fst)) GI (truncGroups s.globalBszAcc R) := by
    have := orderGroups_forall₂ g1 s.length_clustering (s.globalBatchSize * 500)
      (truncGroups s.globalBszAcc R) (by positivity)
    rw [hog] at this
    exact this
  have hGIdvd : ∀ kv ∈ GI, s.globalBatchSize * s.acc_grad ∣ kv.2.length := by
    intro kv hkv
    obtain ⟨b, hb, hk, hperm⟩ := forall₂_mem_left hGIfor hkv
    rw [hperm.length_eq, List.length_map, ← hA]
    exact htgdvd b hb
  -- stage 4: batching
  rcases hbs : batchStage g2 s.allow_mixed_task_among_acc s.globalBatchSize
      s.acc_grad GI with ⟨units, g3⟩
  have hflat : units.flatten.Perm (flattenValues GI) := by
    have := batchStage_flatten_perm g2 s.allow_mixed_task_among_acc
      s.globalBatchSize s.acc_grad hgbs ha GI hGIdvd
    rw [hbs] at this
    exact this
  -- stage 5: final shuffle and flatten
  rcases hfs : shuffleGo g3 units with ⟨shUnits, g4⟩
  have hperm : shUnits.Perm units := by
    have := shuffleGo_perm g3 units
    rw [hfs] at this
    exact this
  have hindperm : shUnits.flatten.Perm
      ((flattenValues (truncGroups s.globalBszAcc R)).map Prod.fst) :=
    (hperm.flatten.trans hflat).trans (flattenValues_perm_forall₂ hGIfor)
  -- derived facts
  have hlenInt : ((shUnits.flatten.length : Nat) : Int) =
      totalSize s.meta_list s.globalBszAcc := by
    rw [hindperm.length_eq, List.length_map]
    exact htgsum
  have hdvd : s.globalBszAcc ∣ shUnits.flatten.length := by
    rw [hindperm.length_eq, List.length_map]
    exact flattenValues_length_dvd htgdvd
  have hnodup : shUnits.flatten.Nodup := by
    rw [← Multiset.coe_nodup]
    apply Multiset.nodup_of_le
      (t := ((List.range' 0 (datasetLen s.meta_list) : List Nat) : Multiset Nat))
    · have h1 : ((shUnits.flatten : List Nat) : Multiset Nat) =
          (((flattenValues (truncGroups s.globalBszAcc R)).map Prod.fst :
            List Nat) : Multiset Nat) := Multiset.coe_eq_coe.mpr hindperm
      have h2 : (((flattenValues (truncGroups s.globalBszAcc R)).map Prod.fst :
          List Nat) : Multiset Nat) ≤
          (((allPairsFrom 0 s.meta_list).map Prod.fst : List Nat) : Multiset Nat) := by
        rw [← Multiset.map_coe, ← Multiset.map_coe]
        exact Multiset.map_le_map (le_trans htgmul hmulR)
      rw [h1, ← allPairsFrom_map_fst (fun meta hmeta => (hwf meta hmeta).1) 0]
      exact h2
    · rw [Multiset.coe_nodup]
      exact List.nodup_range' _ _
  -- the do-block computes exactly this
  have hgi : s.globalIndices = .ok shUnits.flatten := by
    rw [globalIndices_eq s hrun hsh hog hbs hfs, if_neg (not_ne_iff.mpr hlenInt)]
  refine ⟨shUnits.flatten, hgi, hlenInt, hdvd, hnodup, ?_⟩
  · intro hmix
    refine ⟨shUnits, rfl, ?_⟩
    intro u hu
    have humem : u ∈ units := hperm.mem_iff.mp hu
    have hspec := batchStageGo_spec s.globalBatchSize s.acc_grad hgbs ha GI g2 hGIdvd
    have hbsgo : batchStageGo g2 s.globalBatchSize s.acc_grad GI = (units, g3) := by
      rw [← hbs, batchStage, hmix]
      simp
    rw [hbsgo] at hspec
    obtain ⟨hulen, kv, hkv, hsub⟩ := hspec.2 u humem
    refine ⟨by rw [hulen, hA], kv.1, ?_⟩
    intro i hi
    obtain ⟨b, hb, hk, hvperm⟩ := forall₂_mem_left hGIfor hkv
    have hival : i ∈ kv.2 := hsub hi
    have himap : i ∈ b.2.map Prod.fst := hvperm.mem_iff.mp hival
    obtain ⟨p, hp, rfl⟩ := List.mem_map.mp himap
    rw [hk]
    exact htgcont b hb p hp

/-! ## Unfolding `__iter__`'s rank share and resume stage -/

theorem iter_eq (s : LuminaPickleSampler) {indices : List Nat}
    (hgi : s.globalIndices = .ok indices)
    (hm : 0 < s.micro_batch_size) (hw : 0 < s.num_replicas)
    (hr : s.rank < s.num_replicas)
    (hlen : (indices.length : Int) = totalSize s.meta_list s.globalBszAcc)
    (hdvd : s.globalBszAcc ∣ indices.length) :
    s.iter = .ok (resumeSlice
      (ownIndices indices s.rank s.micro_batch_size s.num_replicas)
      s.start_iter s.micro_batch_size) ∧
    (ownIndices indices s.rank s.micro_batch_size s.num_replicas).length =
      s.micro_batch_size *
        (indices.length / (s.num_replicas * s.micro_batch_size)) ∧
    ((ownIndices indices s.rank s.micro_batch_size s.num_replicas).length : Int) =
      numSamples s.meta_list s.globalBszAcc s.num_replicas := by
  have hwm : s.num_replicas * s.micro_batch_size ∣ indices.length := by
    refine dvd_trans ⟨s.acc_grad, ?_⟩ hdvd
    show s.globalBszAcc = _
    rw [LuminaPickleSampler.globalBszAcc]
    ring
  have hlq : s.num_replicas * s.micro_batch_size *
      (indices.length / (s.num_replicas * s.micro_batch_size)) = indices.length :=
    Nat.mul_div_cancel' hwm
  have hosa := ownIndices_eq_shareAux (l := indices) hm hr hwm
  have hol : (ownIndices indices s.rank s.micro_batch_size s.num_replicas).length =
      s.micro_batch_size *
        (indices.length / (s.num_replicas * s.micro_batch_size)) := by
    rw [hosa]
    exact shareAux_length hr _ indices hlq.symm
  have hns : ((ownIndices indices s.rank s.micro_batch_size
      s.num_replicas).length : Int) =
      numSamples s.meta_list s.globalBszAcc s.num_replicas := by
    rw [hol, numSamples, ← hlen, natCast_fdiv]
    congr 1
    conv_rhs => rw [← hlq]
    rw [show s.num_replicas * s.micro_batch_size *
        (indices.length / (s.num_replicas * s.micro_batch_size)) =
      s.num_replicas * (s.micro_batch_size *
        (indices.length / (s.num_replicas * s.micro_batch_size))) by ring,
      Nat.mul_div_cancel_left _ hw]
  refine ⟨?_, hol, hns⟩
  simp only [LuminaPickleSampler.iter, hgi, Bind.bind, Except.bind]
  rw [if_neg (not_ne_iff.mpr hns)]

theorem resumeSlice_zero (own : List Nat) (m : Nat) : resumeSlice own 0 m = own := by
  rw [resumeSlice, if_neg (by simp), pySliceFrom, if_pos (by simp)]
  simp

theorem resumeSlice_nonneg (own : List Nat) (k : Int) (hk : 0 ≤ k) (m : Nat) :
    resumeSlice own k m = own.drop (k.toNat * m) := by
  rw [resumeSlice]
  by_cases h : k * m > (own.length : Int)
  · rw [if_pos h]
    symm
    apply List.drop_eq_nil_of_le
    have hcast : ((k.toNat * m : Nat) : Int) = k * m := by
      push_cast [Int.toNat_of_nonneg hk]
      ring
    have hlt : (own.length : Int) < ((k.toNat * m : Nat) : Int) := by
      rw [hcast]
      exact h
    exact_mod_cast le_of_lt hlt
  · rw [if_neg h, pySliceFrom, if_pos (mul_nonneg hk (by positivity))]
    have hcast : ((k.toNat * m : Nat) : Int) = k * m := by
      push_cast [Int.toNat_of_nonneg hk]
      ring
    congr 1
    omega

theorem resumeSlice_neg (own : List Nat) (k : Int) (m : Nat) (hm : 0 < m)
    (hk : k < 0) (hfit : (-k).toNat * m ≤ own.length) :
    resumeSlice own k m = own.drop (own.length - (-k).toNat * m) := by
  have hmz : (0 : Int) < (m : Int) := by exact_mod_cast hm
  have hneg : k * m < 0 := mul_neg_of_neg_of_pos hk hmz
  rw [resumeSlice, if_neg (by omega), pySliceFrom, if_neg (by omega)]
  congr 1
  have hcast : ((((-k).toNat * m : Nat)) : Int) = -(k * m) := by
    push_cast [Int.toNat_of_nonneg (show (0 : Int) ≤ -k by omega)]
    ring
  omega

/-! ## `__iter__` failure on `shuffle = False` -/

theorem iter_shuffle_false (s : LuminaPickleSampler) (hshf : s.shuffle = false) :
    (∀ l, s.iter ≠ .ok l) ∧
    (∀ R g1, buildGroups (s.seed + s.epoch) s.meta_list = .ok (R, g1) →
      s.iter = .error "NotImplementedError") := by
  constructor
  · intro l
    cases hb : buildGroups (s.seed + s.epoch) s.meta_list with
    | error e =>
        simp only [LuminaPickleSampler.iter, LuminaPickleSampler.globalIndices, hb,
          Bind.bind, Except.bind]
        exact fun h => Except.noConfusion h
    | ok pr =>
        obtain ⟨R, g1⟩ := pr
        simp only [LuminaPickleSampler.iter, LuminaPickleSampler.globalIndices, hb,
          hshf, Bool.false_eq_true, if_false, Bind.bind, Except.bind]
        exact fun h => Except.noConfusion h
  · intro R g1 hb
    simp only [LuminaPickleSampler.iter, LuminaPickleSampler.globalIndices, hb,
      hshf, Bool.false_eq_true, if_false, Bind.bind, Except.bind]

/-! ## The sequential fallback sampler -/

theorem pyRange_map_form (s n st : Nat) (hst : 0 < st) :
    pyRange s n st = (List.range ((n - s + st - 1) / st)).map (fun i => s + i * st) := by
  rw [pyRange, if_neg (by omega)]

theorem mockedBatches_length (N micro : Nat) (h : 0 < micro) :
    (mockedBatches N micro).length = mockedLen N micro := by
  rw [mockedBatches, List.length_map, pyRange_map_form 0 N micro h, List.length_map,
    List.length_range, mockedLen]
  norm_num

theorem mockedBatches_get (N micro : Nat) (h : 0 < micro) (i : Nat)
    (hi : i < (mockedBatches N micro).length) :
    (mockedBatches N micro).getD i [] =
      List.range' (i * micro) (min ((i + 1) * micro) N - i * micro) := by
  rw [mockedBatches, pyRange_map_form 0 N micro h, List.map_map] at hi ⊢
  rw [List.getD_eq_getElem _ _ hi, List.getElem_map, List.getElem_range]
  simp only [Function.comp]
  rw [Nat.zero_add]
  congr 1
  rw [show (i + 1) * micro = i * micro + micro by ring]

theorem mockedBatches_flatten (N micro : Nat) (h : 0 < micro) :
    (mockedBatches N micro).flatten = List.range N := by
  have key : ∀ fuel s, N - s ≤ fuel →
      ((pyRange s N micro).map
        (fun start => List.range' start (min (start + micro) N - start))).flatten =
      List.range' s (N - s) := by
    intro fuel
    induction fuel with
    | zero =>
        intro s hf
        rw [pyRange_stop_le _ _ _ (by omega), show N - s = 0 by omega]
        rfl
    | succ fuel ih =>
        intro s hf
        by_cases hs : s < N
        · rw [pyRange_cons s N micro hs h, List.map_cons, List.flatten_cons,
            ih (s + micro) (by omega)]
          by_cases hc : s + micro ≤ N
          · rw [min_eq_left hc, show s + micro - s = micro by omega]
            have happ := List.range'_append s micro (N - (s + micro)) 1
            rw [one_mul] at happ
            rw [happ]
            congr 1
            omega
          · rw [min_eq_right (by omega), show N - (s + micro) = 0 by omega]
            simp
        · rw [pyRange_stop_le _ _ _ (by omega), show N - s = 0 by omega]
          rfl
  rw [mockedBatches, key N 0 (by omega), Nat.sub_zero, List.range_eq_range']

/-! ## The amended `group_len` formula (per-partition truncation, then sums) -/

theorem alistFind_nil (k : String) : alistFind ([] : List (String × Int)) k = none :=
  rfl

theorem alistFind_cons_eq {k₀ k : String} (h : k₀ = k) (v : Int)
    (rest : List (String × Int)) : alistFind ((k₀, v) :: rest) k = some v := by
  unfold alistFind
  rw [List.find?_cons_of_pos _ (by simp [h])]
  rfl

theorem alistFind_cons_ne {k₀ k : String} (h : k₀ ≠ k) (v : Int)
    (rest : List (String × Int)) :
    alistFind ((k₀, v) :: rest) k = alistFind rest k := by
  unfold alistFind
  rw [List.find?_cons_of_neg _ (by simp [h])]

theorem alistFind_upsert_self (acc : List (String × Int)) (k : String)
    (f : Int → Int) (dflt : Int) :
    alistFind (alistUpsert acc k f dflt) k =
      some (f ((alistFind acc k).getD dflt)) := by
  induction acc with
  | nil =>
      show alistFind [(k, f dflt)] k = _
      rw [alistFind_cons_eq rfl, alistFind_nil]
      rfl
  | cons kv rest ih =>
      obtain ⟨k₀, v⟩ := kv
      by_cases h : k₀ = k
      · simp only [alistUpsert, if_pos h]
        rw [alistFind_cons_eq h, alistFind_cons_eq h]
        rfl
      · simp only [alistUpsert, if_neg h]
        rw [alistFind_cons_ne h, alistFind_cons_ne h]
        exact ih

theorem alistFind_upsert_ne (acc : List (String × Int)) {k t : String}
    (h : t ≠ k) (f : Int → Int) (dflt : Int) :
    alistFind (alistUpsert acc k f dflt) t = alistFind acc t := by
  have hk : k ≠ t := fun hh => h hh.symm
  induction acc with
  | nil =>
      show alistFind [(k, f dflt)] t = _
      rw [alistFind_cons_ne hk, alistFind_nil]
  | cons kv rest ih =>
      obtain ⟨k₀, v⟩ := kv
      by_cases h0 : k₀ = k
      · simp only [alistUpsert, if_pos h0]
        rw [alistFind_cons_ne (by rw [h0]; exact hk),
          alistFind_cons_ne (by rw [h0]; exact hk)]
      · simp only [alistUpsert, if_neg h0]
        by_cases h1 : k₀ = t
        · rw [alistFind_cons_eq h1, alistFind_cons_eq h1]
        · rw [alistFind_cons_ne h1, alistFind_cons_ne h1]
          exact ih

theorem groupSum_cons (meta : GroupMeta) (rest : List GroupMeta) (t : String) :
    groupSum (meta :: rest) t =
      (if meta.type = t then contribInt meta else 0) + groupSum rest t := by
  by_cases h : meta.type = t
  · rw [groupSum, List.filter_cons_of_pos (by simp [h]), List.map_cons,
      List.sum_cons, if_pos h, groupSum]
  · rw [groupSum, List.filter_cons_of_neg (by simp [h]), if_neg h, groupSum,
      Int.zero_add]

theorem alistFind_groupLenRaw_fold (metas : List GroupMeta) :
    ∀ (acc : List (String × Int)) (t : String),
      alistFind (metas.foldl
        (fun a meta => alistUpsert a meta.type (· + contribInt meta) 0) acc) t =
      match alistFind acc t with
      | some v => some (v + groupSum metas t)
      | none =>
          if t ∈ metas.map (·.type) then some (groupSum metas t) else none := by
  induction metas with
  | nil =>
      intro acc t
      cases h : alistFind acc t with
      | some v => simp [groupSum, h]
      | none => simp [groupSum, h]
  | cons meta rest ih =>
      intro acc t
      rw [List.foldl_cons, ih, groupSum_cons]
      by_cases htm : meta.type = t
      · subst htm
        rw [alistFind_upsert_self]
        cases h : alistFind acc meta.type with
        | some v =>
            simp only [h, Option.getD_some, if_true]
            congr 1
            ring
        | none =>
            simp only [h, Option.getD_none, List.map_cons, List.mem_cons,
              true_or, if_true]
            congr 1
            ring
      · have hne : t ≠ meta.type := fun hh => htm hh.symm
        rw [alistFind_upsert_ne acc hne, if_neg htm, Int.zero_add]
        cases h : alistFind acc t with
        | some v => simp [h]
        | none =>
            have hiff : (t = meta.type ∨ t ∈ rest.map (·.type)) ↔
                t ∈ rest.map (·.type) :=
              ⟨fun hor => hor.elim (fun h1 => absurd h1 hne) id, Or.inr⟩
            simp only [h, List.map_cons, List.mem_cons, hiff]

theorem alistKeys_upsert (acc : List (String × Int)) (k : String)
    (f : Int → Int) (dflt : Int) :
    (alistUpsert acc k f dflt).map (·.1) =
      if k ∈ acc.map (·.1) then acc.map (·.1) else acc.map (·.1) ++ [k] := by
  induction acc with
  | nil => simp [alistUpsert]
  | cons kv rest ih =>
      obtain ⟨k₀, v⟩ := kv
      by_cases h : k₀ = k
      · simp only [alistUpsert, if_pos h, List.map_cons, List.mem_cons]
        rw [if_pos (Or.inl h.symm)]
      · simp only [alistUpsert, if_neg h, List.map_cons, List.mem_cons, ih]
        have hiff : (k = k₀ ∨ k ∈ rest.map (·.1)) ↔ k ∈ rest.map (·.1) :=
          ⟨fun hor => hor.elim (fun h1 => absurd h1.symm h) id, Or.inr⟩
        simp only [hiff]
        by_cases h2 : k ∈ rest.map (·.1)
        · rw [if_pos h2, if_pos h2]
        · rw [if_neg h2, if_neg h2]
          rfl

theorem mem_keys_foldl (metas : List GroupMeta) :
    ∀ (acc : List (String × Int)) (t : String),
      (t ∈ (metas.foldl
        (fun a meta => alistUpsert a meta.type (· + contribInt meta) 0) acc).map (·.1)) ↔
      t ∈ acc.map (·.1) ∨ t ∈ metas.map (·.type) := by
  induction metas with
  | nil =>
      intro acc t
      simp
  | cons meta rest ih =>
      intro acc t
      rw [List.foldl_cons, ih]
      rw [alistKeys_upsert]
      by_cases h : meta.type ∈ acc.map (·.1)
      · rw [if_pos h]
        simp only [List.map_cons, List.mem_cons]
        constructor
        · tauto
        · rintro (h1 | h1 | h1)
          · tauto
          · exact Or.inl (h1 ▸ h)
          · tauto
      · rw [if_neg h]
        simp only [List.mem_append, List.mem_singleton, List.map_cons,
          List.mem_cons]
        tauto

theorem keys_foldl_nodup (metas : List GroupMeta) :
    ∀ (acc : List (String × Int)), ((acc.map (·.1)).Nodup) →
      ((metas.foldl
        (fun a meta => alistUpsert a meta.type (· + contribInt meta) 0) acc).map
          (·.1)).Nodup := by
  induction metas with
  | nil => intro acc h; exact h
  | cons meta rest ih =>
      intro acc h
      rw [List.foldl_cons]
      apply ih
      rw [alistKeys_upsert]
      by_cases hmem : meta.type ∈ acc.map (·.1)
      · rw [if_pos hmem]
        exact h
      · rw [if_neg hmem]
        simp only [List.nodup_append, List.nodup_cons, List.not_mem_nil,
          not_false_iff, List.nodup_nil, and_true, List.disjoint_singleton]
        exact ⟨h, by simpa using fun hh => hmem hh⟩

theorem alistFind_of_mem_nodup {l : List (String × Int)}
    (hnd : (l.map (·.1)).Nodup) {k : String} {v : Int} (hmem : (k, v) ∈ l) :
    alistFind l k = some v := by
  induction l with
  | nil => simp at hmem
  | cons kv rest ih =>
      obtain ⟨k₀, v₀⟩ := kv
      rw [List.map_cons, List.nodup_cons] at hnd
      rcases List.mem_cons.mp hmem with hh | hh
      · rw [Prod.mk.injEq] at hh
        rw [← hh.2, alistFind_cons_eq hh.1.symm]
      · have hk : k₀ ≠ k := by
          intro he
          exact hnd.1 (he ▸ List.mem_map.mpr ⟨(k, v), hh, rfl⟩)
        rw [alistFind_cons_ne hk]
        exact ih hnd.2 hh

theorem groupLenRaw_value (metas : List GroupMeta) {kv : String × Int}
    (hmem : kv ∈ groupLenRaw metas) : kv.2 = groupSum metas kv.1 := by
  have hnd : ((groupLenRaw metas).map (·.1)).Nodup :=
    keys_foldl_nodup metas [] (by simp)
  have hfind : alistFind (groupLenRaw metas) kv.1 = some kv.2 :=
    alistFind_of_mem_nodup hnd (by rw [← Prod.mk.eta (p := kv)] at hmem; exact hmem)
  have hform := alistFind_groupLenRaw_fold metas [] kv.1
  rw [groupLenRaw] at hfind
  rw [hfind] at hform
  simp only [alistFind_nil] at hform
  by_cases hmemty : kv.1 ∈ metas.map (·.type)
  · rw [if_pos hmemty] at hform
    exact (Option.some.inj hform)
  · rw [if_neg hmemty] at hform
    exact absurd hform (by simp)

theorem totalSize_eq_finset_sum (metas : List GroupMeta) (A : Nat) :
    totalSize metas A =
      ∑ t ∈ (metas.map (·.type)).toFinset, ((groupSum metas t).fdiv A * A) := by
  have hnd : ((groupLenRaw metas).map (·.1)).Nodup :=
    keys_foldl_nodup metas [] (by simp)
  have h1 : totalSize metas A =
      ((groupLenRaw metas).map
        (fun kv => kv.2.fdiv (A : Int) * (A : Int))).sum := by
    rw [totalSize, alignedGroupLen, List.map_map]
    congr 1
  have h2 : ((groupLenRaw metas).map
        (fun kv => kv.2.fdiv (A : Int) * (A : Int))) =
      ((groupLenRaw metas).map
        (fun kv => (groupSum metas kv.1).fdiv (A : Int) * (A : Int))) :=
    List.map_congr_left (fun kv hkv => by rw [groupLenRaw_value metas hkv])
  have h3 : ((groupLenRaw metas).map
        (fun kv => (groupSum metas kv.1).fdiv (A : Int) * (A : Int))) =
      (((groupLenRaw metas).map (·.1)).map
        (fun t => (groupSum metas t).fdiv (A : Int) * (A : Int))) := by
    rw [List.map_map]
    congr 1
  have h4 := List.sum_toFinset (fun t => (groupSum metas t).fdiv A * A) hnd
  have h5 : ((groupLenRaw metas).map (·.1)).toFinset =
      (metas.map (·.type)).toFinset := by
    apply Finset.ext
    intro t
    simp only [List.mem_toFinset]
    have := mem_keys_foldl metas [] t
    rw [groupLenRaw]
    rw [this]
    simp
  rw [h1, h2, h3, ← h4, h5]

theorem halfQ_eq : halfQ = 1 / 2 := by
  conv_rhs => rw [show (1 : ℚ) = ((halfQ.num : Int) : ℚ) by norm_num [halfQ],
                  show (2 : ℚ) = ((halfQ.den : Nat) : ℚ) by norm_num [halfQ]]
  exact (Rat.num_div_den halfQ).symm

theorem alistFind_map_align (l : List (String × Int)) (A : Nat) (k : String) :
    alistFind (l.map (fun kv => (kv.1, kv.2.fdiv (A : Int) * (A : Int)))) k =
      (alistFind l k).map (fun v => v.fdiv (A : Int) * (A : Int)) := by
  induction l with
  | nil => rfl
  | cons kv rest ih =>
      obtain ⟨k₀, v⟩ := kv
      by_cases h : k₀ = k
      · rw [List.map_cons, alistFind_cons_eq h, alistFind_cons_eq h]
        rfl
      · rw [List.map_cons, alistFind_cons_ne h, alistFind_cons_ne h, ih]

/-! # Claims -/

/-- C1 (code bug): the outer wrapper `LuminaPickleBatchSampler` computes
`num_batches = len(dataset) // micro_batch_size // world_size` from the raw
dataset length, not `num_samples_per_rank // micro_batch_size` from the
ratio-applied, alignment-truncated `total_size`.  On a dataset with one
5-sample partition and `micro_batch_size = 1`, `acc_grad = 2`, one rank,
the wrapper reports 5 micro-batches while the inner sampler yields only
`num_samples_per_rank = 4` indices, so the wrapper's generator exhausts the
inner iterator and raises (a `RuntimeError` from `StopIteration`) instead of
yielding `num_samples_per_rank // micro_batch_size = 4` micro-batches. -/
theorem C1_num_batches_mismatch :
    LuminaPickleBatchSampler.numBatches samplerC1 = 5 ∧
    numSamples samplerC1.meta_list samplerC1.globalBszAcc
      samplerC1.num_replicas = 4 ∧
    samplerC1.iter = .ok [2, 1, 0, 3] ∧
    LuminaPickleBatchSampler.batchIter samplerC1 = .error "RuntimeError" ∧
    (5 : Nat) ≠ 4 := by
  refine ⟨by decide, by decide, by decide, by decide, by decide⟩

/-- C3: determinism — two sampler instances whose configuration
(`micro_batch_size`, `acc_grad`, `shuffle`, `seed`, `length_clustering`,
`allow_mixed_task_among_acc`, world size, rank), dataset metadata, epoch and
`start_iter` coincide produce identical global permutations and identical
per-rank index sequences when iterated. -/
theorem C3_determinism (s1 s2 : LuminaPickleSampler)
    (hmeta : s1.meta_list = s2.meta_list)
    (hmbs : s1.micro_batch_size = s2.micro_batch_size)
    (hacc : s1.acc_grad = s2.acc_grad)
    (hshuf : s1.shuffle = s2.shuffle)
    (hseed : s1.seed = s2.seed)
    (hlc : s1.length_clustering = s2.length_clustering)
    (hmix : s1.allow_mixed_task_among_acc = s2.allow_mixed_task_among_acc)
    (hw : s1.num_replicas = s2.num_replicas)
    (hr : s1.rank = s2.rank)
    (hep : s1.epoch = s2.epoch)
    (hst : s1.start_iter = s2.start_iter) :
    s1.globalIndices = s2.globalIndices ∧ s1.iter = s2.iter := by
  cases s1
  cases s2
  simp only at hmeta hmbs hacc hshuf hseed hlc hmix hw hr hep hst
  subst hmeta hmbs hacc hshuf hseed hlc hmix hw hr hep hst
  exact ⟨rfl, rfl⟩

/-- C3 witness: the two concretely equal twin instances. -/
theorem C3_determinism_witness :
    samplerC3a.meta_list = samplerC3b.meta_list ∧
    (samplerC3a.globalIndices = samplerC3b.globalIndices ∧
      samplerC3a.iter = samplerC3b.iter) :=
  ⟨rfl, C3_determinism samplerC3a samplerC3b rfl rfl rfl rfl rfl rfl rfl rfl
    rfl rfl rfl⟩

/-- C5 counterexample: the claim computes `GroupLen` from the exact rational
products summed before truncation.  With two same-type partitions of
`len = 3`, `ratio = 1/2` and `A = 1`, the code sums `int(1.5) + int(1.5) = 2`
while the claimed formula gives `⌊(1.5 + 1.5) / 1⌋ * 1 = 3`. -/
theorem C5_counterexample :
    alistFind (alignedGroupLen metasC5 1) "t" = some 2 ∧
    totalSize metasC5 1 = 2 ∧
    ⌊(((3 : ℚ) * halfQ) + ((3 : ℚ) * halfQ)) / ((1 : ℚ))⌋ * 1 = 3 ∧
    (2 : Int) ≠ 3 := by
  refine ⟨by decide, by decide, ?_, by decide⟩
  rw [halfQ_eq]
  norm_num

/-- C5 (amended): each partition's product `len_i * ratio_i` is truncated to
an integer by Python `int()` (toward zero) *before* the per-group sums are
taken: for every occurring group label `t`,
`GroupLen[t] = ((Σ_partitions int(len_i*ratio_i)) // A) * A`, and
`total_size` is the sum of these per-group values over the distinct labels.
`contribInt` is exactly `int(len * ratio)` over the exact rational value. -/
theorem C5_group_len_amended (metas : List GroupMeta) (A : Nat) :
    (∀ meta : GroupMeta, contribInt meta = pyInt ((meta.len : ℚ) * meta.ratio)) ∧
    (∀ t ∈ metas.map (·.type),
      alistFind (alignedGroupLen metas A) t =
        some ((groupSum metas t).fdiv A * A)) ∧
    totalSize metas A =
      ∑ t ∈ (metas.map (·.type)).toFinset, ((groupSum metas t).fdiv A * A) := by
  refine ⟨contribInt_eq_pyInt, ?_, totalSize_eq_finset_sum metas A⟩
  intro t ht
  rw [alignedGroupLen, alistFind_map_align, groupLenRaw,
    alistFind_groupLenRaw_fold metas [] t]
  simp only [alistFind_nil]
  rw [if_pos ht]
  rfl

/-- C5 amended-claim witness at the concrete two-partition input. -/
theorem C5_group_len_amended_witness :
    ("t" ∈ metasC5.map (·.type)) ∧
    ((∀ meta : GroupMeta, contribInt meta = pyInt ((meta.len : ℚ) * meta.ratio)) ∧
    (∀ t ∈ metasC5.map (·.type),
      alistFind (alignedGroupLen metasC5 1) t =
        some ((groupSum metasC5 t).fdiv 1 * 1)) ∧
    totalSize metasC5 1 =
      ∑ t ∈ (metasC5.map (·.type)).toFinset, ((groupSum metasC5 t).fdiv 1 * 1)) :=
  ⟨by decide, C5_group_len_amended metasC5 1⟩

/-- C6 counterexample: the claim says a `ratio ≠ 1` partition contributes
`round(len * ratio)` pairs.  The code uses `int()` (truncation): for
`len = 3`, `ratio = 1/2` the per-epoch loop contributes 1 pair while
`round(1.5) = 2`. -/
theorem C6_counterexample :
    (partitionSelect 0 0 metaC6).map (fun pr => pr.1.length) = .ok 1 ∧
    round ((3 : ℚ) * metaC6.ratio) = 2 ∧ (1 : Nat) ≠ 2 := by
  refine ⟨by decide, ?_, by decide⟩
  show round ((3 : ℚ) * halfQ) = 2
  rw [halfQ_eq]
  norm_num [round_eq]

/-- C6 (amended): during per-epoch permutation construction, a partition with
`ratio ≠ 1` contributes exactly `int(len * ratio)` (truncation toward zero,
not `round`) pairs, sampled without replacement (a sub-multiset of its own
pairs) from that partition's own global index range
`[start, start + len)`, before alignment truncation; a partition with
`ratio = 1` keeps all `len` pairs. -/
theorem C6_ratio_subsample_amended (g start : Nat) (meta : GroupMeta)
    (hlen : meta.len = meta.item_len_list.length)
    (h0 : 0 ≤ meta.ratio) (h1 : meta.ratio ≤ 1) :
    ∃ chosen g1, partitionSelect g start meta = .ok (chosen, g1) ∧
      (chosen.length : Int) = pyInt ((meta.len : ℚ) * meta.ratio) ∧
      ((chosen : List (Nat × Nat)) : Multiset (Nat × Nat)) ≤
        ((partitionPairs start meta : List (Nat × Nat)) :
          Multiset (Nat × Nat)) ∧
      (∀ p ∈ chosen, p.1 ∈ List.range' start meta.len) ∧
      (meta.ratio = 1 → chosen = partitionPairs start meta) := by
  obtain ⟨chosen, g1, hsel, hclen, hsub, hone⟩ :=
    partitionSelect_spec g start meta hlen h0 h1
  refine ⟨chosen, g1, hsel, by rw [hclen, contribInt_eq_pyInt], hsub, ?_, hone⟩
  intro p hp
  have hpairs : p ∈ partitionPairs start meta :=
    Multiset.mem_coe.mp (Multiset.mem_of_le hsub (Multiset.mem_coe.mpr hp))
  have hmap : p.1 ∈ (partitionPairs start meta).map Prod.fst :=
    List.mem_map.mpr ⟨p, hpairs, rfl⟩
  rw [partitionPairs_map_fst hlen] at hmap
  exact hmap

/-- C6 amended-claim witness at the concrete half-ratio partition. -/
theorem C6_ratio_subsample_amended_witness :
    (metaC6.len = metaC6.item_len_list.length ∧ 0 ≤ metaC6.ratio ∧
      metaC6.ratio ≤ 1) ∧
    (∃ chosen g1, partitionSelect 0 0 metaC6 = .ok (chosen, g1) ∧
      (chosen.length : Int) = pyInt ((metaC6.len : ℚ) * metaC6.ratio) ∧
      ((chosen : List (Nat × Nat)) : Multiset (Nat × Nat)) ≤
        ((partitionPairs 0 metaC6 : List (Nat × Nat)) :
          Multiset (Nat × Nat)) ∧
      (∀ p ∈ chosen, p.1 ∈ List.range' 0 metaC6.len) ∧
      (metaC6.ratio = 1 → chosen = partitionPairs 0 metaC6)) :=
  ⟨⟨by decide, by decide, by decide⟩,
    C6_ratio_subsample_amended 0 0 metaC6 (by decide) (by decide) (by decide)⟩

/-- Changing only `start_iter` changes only the final resume slice: the
global permutation, the rank share and the share-length assert are
unaffected. -/
theorem iter_resume_shift (s : LuminaPickleSampler) (own : List Nat)
    (h0 : ({s with start_iter := 0} : LuminaPickleSampler).iter = .ok own) :
    s.iter = .ok (resumeSlice own s.start_iter s.micro_batch_size) := by
  have hgi0 : ({s with start_iter := 0} : LuminaPickleSampler).globalIndices =
      s.globalIndices := rfl
  have hA0 : ({s with start_iter := 0} : LuminaPickleSampler).globalBszAcc =
      s.globalBszAcc := rfl
  cases hgi : s.globalIndices with
  | error e =>
      simp only [LuminaPickleSampler.iter, hgi0, hgi, Bind.bind, Except.bind] at h0
      exact absurd h0 (by simp)
  | ok indices =>
      simp only [LuminaPickleSampler.iter, hgi0, hgi, hA0, Bind.bind,
        Except.bind] at h0
      simp only [LuminaPickleSampler.iter, hgi, Bind.bind, Except.bind]
      by_cases hns : ((ownIndices indices s.rank s.micro_batch_size
          s.num_replicas).length : Int) ≠
          numSamples s.meta_list s.globalBszAcc s.num_replicas
      · rw [if_pos hns] at h0
        exact absurd h0 (by simp)
      · rw [if_neg hns] at h0
        rw [if_neg hns]
        have h := Except.ok.inj h0
        rw [resumeSlice_zero] at h
        rw [h]

/-- C7: with a non-negative `start_iter = k`, iterating the sampler yields
the rank's un-resumed share with exactly the first `k * micro_batch_size`
elements dropped; when `k * micro_batch_size` is at least the share's
length, the iteration is empty and no error is raised. -/
theorem C7_resume_semantics (s : LuminaPickleSampler) (k : Int)
    (hk : 0 ≤ k) (hs : s.start_iter = k) :
    ∀ own, ({s with start_iter := 0} : LuminaPickleSampler).iter = .ok own →
      s.iter = .ok (own.drop (k.toNat * s.micro_batch_size)) ∧
      (own.length ≤ k.toNat * s.micro_batch_size → s.iter = .ok []) := by
  intro own h0
  have hshift := iter_resume_shift s own h0
  rw [hs, resumeSlice_nonneg own k hk s.micro_batch_size] at hshift
  refine ⟨hshift, ?_⟩
  intro hle
  rw [hshift, List.drop_eq_nil_of_le hle]

/-- C7 witness: one four-sample partition, one rank, `start_iter = 2`. -/
theorem C7_resume_semantics_witness :
    ((0 : Int) ≤ 2 ∧ samplerC7.start_iter = 2 ∧
      ({samplerC7 with start_iter := 0} : LuminaPickleSampler).iter =
        .ok [1, 0, 2, 3]) ∧
    samplerC7.iter =
      .ok (([1, 0, 2, 3] : List Nat).drop
        ((2 : Int).toNat * samplerC7.micro_batch_size)) :=
  ⟨⟨by decide, rfl, by decide⟩,
    (C7_resume_semantics samplerC7 2 (by decide) rfl [1, 0, 2, 3] (by decide)).1⟩

/-- C8: a sampler constructed with `shuffle = False` never yields any index:
whenever the construction stage itself succeeds, `__iter__` raises
`NotImplementedError` (the intentionally unimplemented path), and in no case
does iteration produce an index list. -/
theorem C8_shuffle_false_fails (s : LuminaPickleSampler)
    (hshf : s.shuffle = false) :
    (∀ l, s.iter ≠ .ok l) ∧
    (∀ R g1, buildGroups (s.seed + s.epoch) s.meta_list = .ok (R, g1) →
      s.iter = .error "NotImplementedError") :=
  iter_shuffle_false s hshf

/-- C8 witness: the concrete `shuffle = False` instance. -/
theorem C8_shuffle_false_fails_witness :
    samplerC8.shuffle = false ∧ samplerC8.iter ≠ .ok [] :=
  ⟨rfl, (C8_shuffle_false_fails samplerC8 rfl).1 []⟩

/-- C9: the sequential fallback sampler partitions a length-`N` dataset into
contiguous ascending runs of the fixed micro-count: one pass yields exactly
`ceil(N / micro)` batches, the `i`-th being
`range(i*micro, min((i+1)*micro, N))`, their concatenation being exactly
`0 .. N-1`; the reported length equals the batch count. -/
theorem C9_sequential_fallback (N micro : Nat) (h : 0 < micro) :
    (mockedBatches N micro).length = (N + micro - 1) / micro ∧
    mockedLen N micro = (N + micro - 1) / micro ∧
    (∀ i, i < (mockedBatches N micro).length →
      (mockedBatches N micro).getD i [] =
        List.range' (i * micro) (min ((i + 1) * micro) N - i * micro)) ∧
    (mockedBatches N micro).flatten = List.range N := by
  refine ⟨?_, rfl, ?_, mockedBatches_flatten N micro h⟩
  · rw [mockedBatches_length N micro h]
    rfl
  · intro i hi
    exact mockedBatches_get N micro h i hi

/-- C9 witness: `N = 5`, `micro = 2` (a ragged final batch). -/
theorem C9_sequential_fallback_witness :
    (0 : Nat) < 2 ∧
    (mockedBatches 5 2).length = (5 + 2 - 1) / 2 ∧
    ((1 : Nat) < (mockedBatches 5 2).length ∧
      (mockedBatches 5 2).getD 1 [] =
        List.range' (1 * 2) (min ((1 + 1) * 2) 5 - 1 * 2)) ∧
    (mockedBatches 5 2).flatten = List.range 5 := by
  refine ⟨by decide, (C9_sequential_fallback 5 2 (by decide)).1,
    ⟨by decide, (C9_sequential_fallback 5 2 (by decide)).2.2.1 1 (by decide)⟩,
    (C9_sequential_fallback 5 2 (by decide)).2.2.2⟩

/-- C10 counterexample: at the boundary `|k| * micro_batch_size =
num_samples_per_rank` the claim contradicts itself — it forbids yielding the
full share yet demands the last `|k| * micro_batch_size` elements, which at
the boundary *are* the full share.  Concretely, `set_epoch(0, -2)` on a
two-sample single-rank share yields the full share `[1, 0]`. -/
theorem C10_counterexample :
    (samplerC10.setEpoch 0 (-2)).iter = samplerC10.iter ∧
    samplerC10.iter = .ok [1, 0] ∧
    ([1, 0] : List Nat) ≠ [] ∧
    numSamples samplerC10.meta_list samplerC10.globalBszAcc
      samplerC10.num_replicas = 2 ∧
    (-(-2 : Int)).toNat * samplerC10.micro_batch_size = 2 := by
  refine ⟨by decide, by decide, by decide, by decide, by decide⟩

/-- C10 (amended): with a negative `start_iter = k` and
`|k| * micro_batch_size ≤` share length, no error is raised and iteration
yields exactly the last `|k| * micro_batch_size` elements of the rank's
un-resumed share (the strict `>` overflow guard does not fire, and the
negative slice start counts from the end); this differs from the full share
exactly when `|k| * micro_batch_size <` share length. -/
theorem C10_negative_resume_amended (s : LuminaPickleSampler) (k : Int)
    (hk : k < 0) (hm : 0 < s.micro_batch_size) (hs : s.start_iter = k) :
    ∀ own, ({s with start_iter := 0} : LuminaPickleSampler).iter = .ok own →
      (-k).toNat * s.micro_batch_size ≤ own.length →
      s.iter = .ok (own.drop (own.length - (-k).toNat * s.micro_batch_size)) ∧
      ((-k).toNat * s.micro_batch_size < own.length →
        s.iter ≠ ({s with start_iter := 0} : LuminaPickleSampler).iter) := by
  intro own h0 hfit
  have hshift := iter_resume_shift s own h0
  rw [hs, resumeSlice_neg own k s.micro_batch_size hm hk hfit] at hshift
  refine ⟨hshift, ?_⟩
  intro hlt heq
  rw [h0, hshift] at heq
  have hinj := Except.ok.inj heq
  have hlen := congrArg List.length hinj
  rw [List.length_drop] at hlen
  omega

/-- C10 amended-claim witness: `start_iter = -1` on a two-sample share. -/
theorem C10_negative_resume_amended_witness :
    ((-1 : Int) < 0 ∧
      0 < samplerC10.micro_batch_size ∧
      ({({samplerC10 with start_iter := -1} : LuminaPickleSampler) with
          start_iter := 0} : LuminaPickleSampler).iter = .ok [1, 0] ∧
      (-(-1 : Int)).toNat * samplerC10.micro_batch_size ≤
        ([1, 0] : List Nat).length) ∧
    ({samplerC10 with start_iter := -1} : LuminaPickleSampler).iter =
      .ok (([1, 0] : List Nat).drop (([1, 0] : List Nat).length -
        (-(-1 : Int)).toNat * samplerC10.micro_batch_size)) ∧
    ({samplerC10 with start_iter := -1} : LuminaPickleSampler).iter ≠
      ({({samplerC10 with start_iter := -1} : LuminaPickleSampler) with
        start_iter := 0} : LuminaPickleSampler).iter := by
  refine ⟨⟨by decide, by decide, by decide, by decide⟩, ?_, ?_⟩
  · exact (C10_negative_resume_amended
      ({samplerC10 with start_iter := -1} : LuminaPickleSampler) (-1)
      (by decide) (by decide) rfl [1, 0] (by decide) (by decide)).1
  · exact (C10_negative_resume_amended
      ({samplerC10 with start_iter := -1} : LuminaPickleSampler) (-1)
      (by decide) (by decide) rfl [1, 0] (by decide) (by decide)).2 (by decide)

/-- C2: for any valid configuration (positive `micro_batch_size`,
`world_size`, `acc_grad`, well-formed metadata, `shuffle = True`), the
per-epoch global flat permutation has exactly `total_size` distinct indices,
every rank `r < world_size` iterates (un-resumed) exactly its fixed-stride
share of `num_samples_per_rank = total_size // world_size` indices, and the
shares of all ranks partition the global permutation as a multiset — no
index on two ranks, none twice on one rank, none lost. -/
theorem C2_rank_partition (s : LuminaPickleSampler)
    (hm : 0 < s.micro_batch_size) (hw : 0 < s.num_replicas)
    (ha : 0 < s.acc_grad) (hwf : MetasWF s.meta_list)
    (hsh : s.shuffle = true) (h0 : s.start_iter = 0) :
    ∃ indices : List Nat,
      s.globalIndices = .ok indices ∧
      ((indices.length : Int) = totalSize s.meta_list s.globalBszAcc) ∧
      indices.Nodup ∧
      (∀ r, r < s.num_replicas →
        ({s with rank := r} : LuminaPickleSampler).iter =
          .ok (ownIndices indices r s.micro_batch_size s.num_replicas) ∧
        ((ownIndices indices r s.micro_batch_size
            s.num_replicas).length : Int) =
          numSamples s.meta_list s.globalBszAcc s.num_replicas) ∧
      ∑ r ∈ Finset.range s.num_replicas,
        ((ownIndices indices r s.micro_batch_size s.num_replicas :
          List Nat) : Multiset Nat) = (indices : Multiset Nat) := by
  obtain ⟨indices, hgi, hlen, hdvd, hnodup, _⟩ :=
    iterPipeline_spec s hm hw ha hwf hsh
  have hwm : s.num_replicas * s.micro_batch_size ∣ indices.length := by
    refine dvd_trans ⟨s.acc_grad, ?_⟩ hdvd
    show s.globalBszAcc = _
    rw [LuminaPickleSampler.globalBszAcc]
    ring
  refine ⟨indices, hgi, hlen, hnodup, ?_, ?_⟩
  · intro r hr
    have hgi' : ({s with rank := r} : LuminaPickleSampler).globalIndices =
        .ok indices := hgi
    obtain ⟨hit, _, hns⟩ := iter_eq ({s with rank := r}) hgi' hm hw hr hlen hdvd
    have hrs : resumeSlice (ownIndices indices r s.micro_batch_size
        s.num_replicas) s.start_iter s.micro_batch_size =
        ownIndices indices r s.micro_batch_size s.num_replicas := by
      rw [h0, resumeSlice_zero]
    exact ⟨hit.trans (congrArg Except.ok hrs), hns⟩
  · have hlq : indices.length = s.num_replicas * s.micro_batch_size *
        (indices.length / (s.num_replicas * s.micro_batch_size)) :=
      (Nat.mul_div_cancel' hwm).symm
    rw [Finset.sum_congr rfl (fun r hr => by
      rw [ownIndices_eq_shareAux hm (Finset.mem_range.mp hr) hwm])]
    exact shareAux_sum_partition _ indices hlq

/-- C2 witness: two single-type partitions shared by two ranks. -/
theorem C2_rank_partition_witness :
    (0 < samplerC2.micro_batch_size ∧ 0 < samplerC2.num_replicas ∧
      0 < samplerC2.acc_grad ∧ MetasWF samplerC2.meta_list ∧
      samplerC2.shuffle = true ∧ samplerC2.start_iter = 0) ∧
    (∃ indices : List Nat,
      samplerC2.globalIndices = .ok indices ∧
      ((indices.length : Int) =
        totalSize samplerC2.meta_list samplerC2.globalBszAcc) ∧
      indices.Nodup ∧
      (∀ r, r < samplerC2.num_replicas →
        ({samplerC2 with rank := r} : LuminaPickleSampler).iter =
          .ok (ownIndices indices r samplerC2.micro_batch_size
            samplerC2.num_replicas) ∧
        ((ownIndices indices r samplerC2.micro_batch_size
            samplerC2.num_replicas).length : Int) =
          numSamples samplerC2.meta_list samplerC2.globalBszAcc
            samplerC2.num_replicas) ∧
      ∑ r ∈ Finset.range samplerC2.num_replicas,
        ((ownIndices indices r samplerC2.micro_batch_size
          samplerC2.num_replicas : List Nat) : Multiset Nat) =
        (indices : Multiset Nat)) :=
  ⟨⟨by decide, by decide, by decide, by decide, rfl, rfl⟩,
    C2_rank_partition samplerC2 (by decide) (by decide) (by decide)
      (by decide) rfl rfl⟩

theorem range'_take (s n c : Nat) :
    (List.range' s n).take c = List.range' s (min c n) := by
  induction c generalizing s n with
  | zero => simp
  | succ c ih =>
      cases n with
      | zero => simp
      | succ n =>
          rw [List.range'_succ, List.take_succ_cons, ih,
            show min (c + 1) (n + 1) = min c n + 1 by omega, List.range'_succ]

theorem range_drop (q a : Nat) :
    (List.range q).drop a = List.range' a (q - a) := by
  by_cases h : a ≤ q
  · have heq : List.range q = List.range' 0 a ++ List.range' a (q - a) := by
      rw [List.range_eq_range']
      have happ := List.range'_append 0 a (q - a) 1
      rw [one_mul, Nat.zero_add] at happ
      rw [happ]
      congr 1
      omega
    rw [heq, List.drop_left' (List.length_range' 0 1 a)]
  · have h1 : q - a = 0 := by omega
    rw [h1]
    exact List.drop_eq_nil_of_le (by rw [List.length_range]; omega)

/-- Every `m`-slice of the fixed-stride share at a micro-batch boundary, and
every `acc * m`-slice at an accumulation boundary, lies inside a single
accumulation unit of the global flat list, hence inside a single group. -/
theorem share_slices_single (metas : List GroupMeta) (indices : List Nat)
    (units : List (List Nat)) (m w acc r q : Nat)
    (hm : 0 < m) (ha : 0 < acc) (hr : r < w)
    (hflat : indices = units.flatten)
    (hulen : ∀ u ∈ units, u.length = w * m * acc)
    (husg : ∀ u ∈ units, ∃ gname, ∀ i ∈ u, groupOf metas i = some gname)
    (hq : units.length * acc = q)
    (hlq : indices.length = w * m * q) :
    (∀ k, k < (ownIndices indices r m w).length / m →
      (((ownIndices indices r m w).drop (k * m)).take m).length = m) ∧
    (∀ k, SingleGroup metas (((ownIndices indices r m w).drop (k * m)).take m)) ∧
    (∀ j, SingleGroup metas
      (((ownIndices indices r m w).drop (j * (acc * m))).take (acc * m))) := by
  have hwm : w * m ∣ indices.length := ⟨q, hlq⟩
  have hwm0 : 0 < w * m := Nat.mul_pos (by omega) hm
  have hdivq : indices.length / (w * m) = q := by
    rw [hlq, Nat.mul_div_cancel_left _ hwm0]
  have hP : ownIndices indices r m w =
      ((List.range q).map
        (fun k => (indices.drop (w * m * k + r * m)).take m)).flatten := by
    rw [ownIndices_eq_shareAux hm hr hwm, hdivq, shareAux_eq_flatten_pieces]
  have hposb : ∀ k, k < q → w * m * k + r * m + m ≤ indices.length := by
    intro k hk
    rw [hlq]
    have h1 : r * m + m ≤ w * m := by
      calc r * m + m = (r + 1) * m := by ring
        _ ≤ w * m := Nat.mul_le_mul_right m hr
    calc w * m * k + r * m + m ≤ w * m * k + w * m := by omega
      _ = w * m * (k + 1) := by ring
      _ ≤ w * m * q := Nat.mul_le_mul_left _ (by omega)
  have hPlen : ∀ p ∈ (List.range q).map
      (fun k => (indices.drop (w * m * k + r * m)).take m), p.length = m := by
    intro p hp
    obtain ⟨k, hk, rfl⟩ := List.mem_map.mp hp
    rw [List.mem_range] at hk
    rw [List.length_take, List.length_drop]
    have := hposb k hk
    omega
  have hown_len : (ownIndices indices r m w).length = m * q := by
    rw [hP, flatten_length_uniform hPlen, List.length_map, List.length_range]
    ring
  have hpieceIn : ∀ k, k < q → ∀ x ∈ (indices.drop (w * m * k + r * m)).take m,
      x ∈ units.getD (k / acc) [] := by
    intro k hk x hx
    have hkdivlt : k / acc < units.length := by
      apply (Nat.div_lt_iff_lt_mul ha).mpr
      rw [hq]
      exact hk
    have hk2 : k = acc * (k / acc) + k % acc := (Nat.div_add_mod k acc).symm
    have hpos : w * m * k + r * m =
        (k / acc) * (w * m * acc) + (w * m * (k % acc) + r * m) := by
      calc w * m * k + r * m
          = w * m * (acc * (k / acc) + k % acc) + r * m := by rw [← hk2]
        _ = (k / acc) * (w * m * acc) + (w * m * (k % acc) + r * m) := by ring
    have hδ : (w * m * (k % acc) + r * m) + m ≤ w * m * acc := by
      have hmod : k % acc < acc := Nat.mod_lt _ ha
      have h1 : r * m + m ≤ w * m := by
        calc r * m + m = (r + 1) * m := by ring
          _ ≤ w * m := Nat.mul_le_mul_right m hr
      calc w * m * (k % acc) + r * m + m ≤ w * m * (k % acc) + w * m := by omega
        _ = w * m * (k % acc + 1) := by ring
        _ ≤ w * m * acc := Nat.mul_le_mul_left _ (by omega)
    rw [hpos, hflat] at hx
    exact mem_slice_flatten_uniform hulen hkdivlt hδ x hx
  have hbatch : ∀ k, ((ownIndices indices r m w).drop (k * m)).take m =
      ((((List.range q).map
        (fun k => (indices.drop (w * m * k + r * m)).take m)).drop k).take
          1).flatten := by
    intro k
    rw [hP]
    have h := flatten_slice_uniform hPlen k 1
    rw [one_mul] at h
    exact h
  have hbatchk : ∀ k, k < q →
      ((ownIndices indices r m w).drop (k * m)).take m =
      (indices.drop (w * m * k + r * m)).take m := by
    intro k hk
    rw [hbatch k]
    have hkP : k < ((List.range q).map
        (fun k => (indices.drop (w * m * k + r * m)).take m)).length := by
      rw [List.length_map, List.length_range]
      exact hk
    rw [List.drop_eq_getElem_cons hkP, List.take_succ_cons, List.take_zero,
      List.flatten_cons, List.flatten_nil, List.append_nil, List.getElem_map,
      List.getElem_range]
  refine ⟨?_, ?_, ?_⟩
  · intro k hk
    rw [hown_len, Nat.mul_div_cancel_left _ hm] at hk
    rw [hbatchk k hk, List.length_take, List.length_drop]
    have := hposb k hk
    omega
  · intro k
    by_cases hk : k < q
    · rw [hbatchk k hk]
      have hkdivlt : k / acc < units.length := by
        apply (Nat.div_lt_iff_lt_mul ha).mpr
        rw [hq]
        exact hk
      obtain ⟨gname, hg⟩ := husg (units.getD (k / acc) [])
        (by rw [List.getD_eq_getElem units [] hkdivlt]
            exact List.getElem_mem hkdivlt)
      exact ⟨gname, fun i hi => hg i (hpieceIn k hk i hi)⟩
    · have hnil : ((ownIndices indices r m w).drop (k * m)).take m = [] := by
        rw [hbatch k, List.drop_eq_nil_of_le
          (by rw [List.length_map, List.length_range]; omega)]
        rfl
      rw [hnil]
      exact ⟨"", fun i hi => absurd hi (List.not_mem_nil i)⟩
  · intro j
    have hslice :
        ((ownIndices indices r m w).drop (j * (acc * m))).take (acc * m) =
        ((((List.range q).map
          (fun k => (indices.drop (w * m * k + r * m)).take m)).drop
            (j * acc)).take acc).flatten := by
      rw [hP]
      have h := flatten_slice_uniform hPlen (j * acc) acc
      rw [show j * acc * m = j * (acc * m) by ring] at h
      exact h
    rw [hslice]
    by_cases hj : j < units.length
    · obtain ⟨gname, hg⟩ := husg (units.getD j [])
        (by rw [List.getD_eq_getElem units [] hj]
            exact List.getElem_mem hj)
      refine ⟨gname, ?_⟩
      intro x hx
      obtain ⟨p, hp, hxp⟩ := List.mem_flatten.mp hx
      rw [← List.map_drop, ← List.map_take] at hp
      obtain ⟨k, hk, rfl⟩ := List.mem_map.mp hp
      rw [range_drop, range'_take] at hk
      have hkb := List.mem_range'_1.mp hk
      have hmin1 := Nat.min_le_left acc (q - j * acc)
      have hmin2 := Nat.min_le_right acc (q - j * acc)
      have hkq : k < q := by omega
      have hkdiv : k / acc = j := Nat.div_eq_of_lt_le (by omega) (by
        have hexp : (j + 1) * acc = j * acc + acc := by ring
        omega)
      have hxin := hpieceIn k hkq x hxp
      rw [hkdiv] at hxin
      exact hg x hxin
    · have hnil : (((List.range q).map
          (fun k => (indices.drop (w * m * k + r * m)).take m)).drop
            (j * acc)) = [] := by
        apply List.drop_eq_nil_of_le
        rw [List.length_map, List.length_range, ← hq]
        exact Nat.mul_le_mul_right acc (by omega)
      rw [hnil]
      exact ⟨"", fun i hi => absurd hi (by simp)⟩

/-- C4: with `allow_mixed_task_among_acc = False` (and a valid, shuffled,
un-resumed configuration), every micro-batch of `micro_batch_size`
consecutive yielded indices is full-sized and homogeneous, and every
accumulation unit of `acc_grad` consecutive micro-batches is homogeneous:
all its indices belong to exactly one task group. -/
theorem C4_homogeneity (s : LuminaPickleSampler)
    (hm : 0 < s.micro_batch_size) (hw : 0 < s.num_replicas)
    (ha : 0 < s.acc_grad) (hwf : MetasWF s.meta_list)
    (hsh : s.shuffle = true) (hmix : s.allow_mixed_task_among_acc = false)
    (h0 : s.start_iter = 0) (hr : s.rank < s.num_replicas) :
    ∀ own, s.iter = .ok own →
      (∀ k, k < own.length / s.micro_batch_size →
        ((own.drop (k * s.micro_batch_size)).take
          s.micro_batch_size).length = s.micro_batch_size) ∧
      (∀ k, SingleGroup s.meta_list
        ((own.drop (k * s.micro_batch_size)).take s.micro_batch_size)) ∧
      (∀ j, SingleGroup s.meta_list
        ((own.drop (j * (s.acc_grad * s.micro_batch_size))).take
          (s.acc_grad * s.micro_batch_size))) := by
  intro own hiter
  obtain ⟨indices, hgi, hlen, hdvd, hnodup, hunits⟩ :=
    iterPipeline_spec s hm hw ha hwf hsh
  obtain ⟨units, hflat, huspec⟩ := hunits hmix
  obtain ⟨hit, hol, hns⟩ := iter_eq s hgi hm hw hr hlen hdvd
  rw [h0, resumeSlice_zero, hiter] at hit
  have hown : own =
      ownIndices indices s.rank s.micro_batch_size s.num_replicas :=
    Except.ok.inj hit
  have hA : s.globalBszAcc =
      s.num_replicas * s.micro_batch_size * s.acc_grad := by
    rw [LuminaPickleSampler.globalBszAcc]
    ring
  have hulen : ∀ u ∈ units, u.length =
      s.num_replicas * s.micro_batch_size * s.acc_grad := by
    intro u hu
    rw [← hA]
    exact (huspec u hu).1
  have husg : ∀ u ∈ units, ∃ gname, ∀ i ∈ u,
      groupOf s.meta_list i = some gname :=
    fun u hu => (huspec u hu).2
  have hlq : indices.length = s.num_replicas * s.micro_batch_size *
      (units.length * s.acc_grad) := by
    rw [hflat, flatten_length_uniform hulen]
    ring
  have key := share_slices_single s.meta_list indices units
    s.micro_batch_size s.num_replicas s.acc_grad s.rank
    (units.length * s.acc_grad) hm ha hr hflat hulen husg rfl hlq
  rw [hown]
  exact key

/-- C4 witness: rank 0 of the two-group two-rank configuration; the second
micro-batch and the first accumulation unit of its share. -/
theorem C4_homogeneity_witness :
    (0 < samplerC2.micro_batch_size ∧ 0 < samplerC2.num_replicas ∧
      0 < samplerC2.acc_grad ∧ MetasWF samplerC2.meta_list ∧
      samplerC2.shuffle = true ∧
      samplerC2.allow_mixed_task_among_acc = false ∧
      samplerC2.start_iter = 0 ∧ samplerC2.rank < samplerC2.num_replicas ∧
      samplerC2.iter = .ok [6, 7, 2, 3]) ∧
    ((([6, 7, 2, 3] : List Nat).drop
        (1 * samplerC2.micro_batch_size)).take
          samplerC2.micro_batch_size).length = samplerC2.micro_batch_size ∧
    SingleGroup samplerC2.meta_list
      ((([6, 7, 2, 3] : List Nat).drop
        (1 * samplerC2.micro_batch_size)).take samplerC2.micro_batch_size) ∧
    SingleGroup samplerC2.meta_list
      ((([6, 7, 2, 3] : List Nat).drop
        (0 * (samplerC2.acc_grad * samplerC2.micro_batch_size))).take
          (samplerC2.acc_grad * samplerC2.micro_batch_size)) := by
  have h := C4_homogeneity samplerC2 (by decide) (by decide) (by decide)
    (by decide) rfl rfl rfl (by decide) [6, 7, 2, 3] (by decide)
  exact ⟨⟨by decide, by decide, by decide, by decide, rfl, rfl, rfl,
    by decide, by decide⟩, h.1 1 (by decide), h.2.1 1, h.2.2 0⟩
